import Mathlib

/-!
Verification of the receipt-extraction pipeline in src/biedronka.py.

The development embeds the parts of the source that the claims are about:

- DataParser: a backtracking regular-expression engine in continuation
  passing style models the Python re module semantics (leftmost match,
  alternatives in order, greedy repetition longest first, finditer with
  non-overlapping matches); RECORD_PATTERN is transcribed into the engine
  syntax, while the two date patterns, which are deterministic (every
  alternative is distinguished by its first character), are compiled to
  direct matchers.
- GoogleDrive.compare_dates and validate_to_download with a faithful model
  of datetime.strptime for the formats used by the source.
- ExcelDataDumper: workbooks as ordered lists of named sheets, sheets as
  row lists; the Python built-in sorted is modelled by a stable insertion
  sort (for the total preorders used here every stable sort computes the
  same list as the CPython sort).

Fallible Python operations (AttributeError on a failed search, ValueError
from strptime and float, IndexError, KeyError, PermissionError) are
modelled with Except or Option.
-/

namespace Biedronka

def lc (s : String) : List Char := s.data

instance instDecEqExcept {ε α : Type} [DecidableEq ε] [DecidableEq α] :
    DecidableEq (Except ε α) := fun a b =>
  match a, b with
  | .error e, .error e₂ =>
      if h : e = e₂ then isTrue (by rw [h]) else isFalse (fun hh => by cases hh; exact h rfl)
  | .ok v, .ok v₂ =>
      if h : v = v₂ then isTrue (by rw [h]) else isFalse (fun hh => by cases hh; exact h rfl)
  | .error _, .ok _ => isFalse (fun hh => by cases hh)
  | .ok _, .error _ => isFalse (fun hh => by cases hh)

/-! ## Regular-expression engine -/

/-- Regular-expression abstract syntax covering the constructs used by the
patterns in the source: character classes, concatenation, ordered
alternation, capture groups, greedy one-or-more repetition of a character
class, and greedy option. -/
inductive Rx where
  | eps
  | cls (p : Char → Bool)
  | seq (a b : Rx)
  | alt (a b : Rx)
  | grp (n : Nat) (r : Rx)
  | plus (p : Char → Bool)
  | opt (r : Rx)

/-- Capture state: group index with the half-open span it captured last.
New captures are consed in front, matching the Python rule that the last
capture of a group wins. -/
abbrev Caps := List (Nat × Nat × Nat)

def getCap (c : Caps) (n : Nat) : Option (Nat × Nat) :=
  (c.find? (fun e => e.1 == n)).map (fun e => e.2)

def setCap (c : Caps) (n a b : Nat) : Caps := (n, a, b) :: c

/-- Length of the maximal run of characters satisfying p. -/
def runLen (p : Char → Bool) : List Char → Nat
  | [] => 0
  | ch :: t => if p ch then runLen p t + 1 else 0

/-- Greedy backtracking over run lengths n, n-1, ..., 1. -/
def tryLens (k : Nat → Option σ) : Nat → Option σ
  | 0 => none
  | n + 1 => (k (n + 1)).orElse (fun _ => tryLens k n)

/-- Backtracking matcher in continuation-passing style, returning the first
success in Python re priority order: leftmost alternative first, greedy
repetition longest first. -/
def mrunK : Rx → List Char → Nat → Caps → (Nat → Caps → Option σ) → Option σ
  | .eps, _, i, c, k => k i c
  | .cls p, s, i, c, k =>
      match s.get? i with
      | some ch => if p ch then k (i + 1) c else none
      | none => none
  | .seq a b, s, i, c, k => mrunK a s i c (fun j c₁ => mrunK b s j c₁ k)
  | .alt a b, s, i, c, k => (mrunK a s i c k).orElse (fun _ => mrunK b s i c k)
  | .grp n r, s, i, c, k => mrunK r s i c (fun j c₁ => k j (setCap c₁ n i j))
  | .plus p, s, i, c, k => tryLens (fun m => k (i + m) c) (runLen p (s.drop i))
  | .opt r, s, i, c, k => (mrunK r s i c k).orElse (fun _ => k i c)

/-- Match r at position i, returning the end position and captures of the
match the Python engine would produce there. -/
def matchAt (r : Rx) (s : List Char) (i : Nat) : Option (Nat × Caps) :=
  mrunK r s i [] (fun j c => some (j, c))

/-- Python re.finditer: scan left to right, emit non-overlapping matches,
resume after each match (one past the start for a zero-width match). The
fuel argument bounds the scan; s.length + 1 suffices since every step
advances the position. -/
def scanFrom (r : Rx) (s : List Char) : Nat → Nat → List (Nat × Nat × Caps)
  | 0, _ => []
  | fuel + 1, i =>
      if i > s.length then []
      else
        match matchAt r s i with
        | some (e, c) => (i, e, c) :: scanFrom r s fuel (max e (i + 1))
        | none => scanFrom r s fuel (i + 1)

def findAll (r : Rx) (s : List Char) : List (Nat × Nat × Caps) :=
  scanFrom r s (s.length + 1) 0

/-- Big-step semantics of the regex syntax: M r s i j c so that r can match
the span from i to j with capture state going from c to the final state.
The engine only returns results supported by this relation. -/
inductive M : Rx → List Char → Nat → Nat → Caps → Caps → Prop where
  | eps : M .eps s i i c c
  | cls : s.get? i = some ch → p ch = true → M (.cls p) s i (i + 1) c c
  | seqM : M a s i j c c₁ → M b s j l c₁ c₂ → M (.seq a b) s i l c c₂
  | altL : M a s i j c c₁ → M (.alt a b) s i j c c₁
  | altR : M b s i j c c₁ → M (.alt a b) s i j c c₁
  | grpM : M r s i j c c₁ → M (.grp n r) s i j c (setCap c₁ n i j)
  | plusM : 1 ≤ m → m ≤ runLen p (s.drop i) → M (.plus p) s i (i + m) c c
  | optS : M r s i j c c₁ → M (.opt r) s i j c c₁
  | optN : M (.opt r) s i i c c

/-- Capture groups occurring anywhere in a pattern. -/
def rGroups : Rx → List Nat
  | .eps => []
  | .cls _ => []
  | .plus _ => []
  | .seq a b => rGroups a ++ rGroups b
  | .alt a b => rGroups a ++ rGroups b
  | .grp n r => n :: rGroups r
  | .opt r => rGroups r

/-- Capture groups set on every successful match of a pattern. -/
def mustSets : Rx → List Nat
  | .eps => []
  | .cls _ => []
  | .plus _ => []
  | .opt _ => []
  | .seq a b => mustSets a ++ mustSets b
  | .alt a b => (mustSets a).inter (mustSets b)
  | .grp n r => n :: mustSets r

/-! ## The source patterns -/

def isDot (c : Char) : Bool := c != '\n'
def isDigit (c : Char) : Bool := '0' ≤ c && c ≤ '9'
def isDigit19 (c : Char) : Bool := '1' ≤ c && c ≤ '9'
def isUpper (c : Char) : Bool := 'A' ≤ c && c ≤ 'Z'
def isXx (c : Char) : Bool := c == 'x' || c == 'X'

/-- Word characters of Python str patterns, restricted to ASCII; code
points above 127 are treated as word characters, which agrees with Python
on the letters appearing in receipts. -/
def isWordC (c : Char) : Bool :=
  isDigit c || ('a' ≤ c && c ≤ 'z') || isUpper c || c == '_' || c.val ≥ 128

def isNonWord (c : Char) : Bool := !(isWordC c)

def isNonSpace (c : Char) : Bool :=
  !(c == ' ' || c == '\t' || c == '\n' || c == '\r' || c == '\x0b' || c == '\x0c')

def isCommaDot (c : Char) : Bool := c == ',' || c == '.'

def chr (ch : Char) : Rx := .cls (fun c => c == ch)

def rxcat (l : List Rx) : Rx := l.foldr .seq .eps

def lit (s : String) : Rx := rxcat (s.data.map chr)

/-- Alternation chain in left-to-right priority order. -/
def altl : List Rx → Rx
  | [] => .eps
  | [r] => r
  | r :: t => .alt r (altl t)

def dig : Rx := .cls isDigit
def dig19 : Rx := .cls isDigit19

/-- An amount without decimals in the source patterns:
three digits, two digits, or one digit, in this order. -/
def amt3 : Rx := altl [rxcat [dig19, dig, dig], rxcat [dig19, dig], dig]

/-- The shared middle of an item line after the name group: space, tax
letter, space, quantity d or dd dot ddd, space, optional x markers and
space, unit-price token, optional cents, space. -/
def itemMid : Rx := rxcat
  [ chr ' ', .cls isUpper, chr ' '
  , altl [rxcat [dig19, dig], dig], chr '.', dig, dig, dig, chr ' '
  , .opt (.cls isXx), .opt (.cls isXx), .opt (chr ' ')
  , altl [rxcat [dig19, dig, dig], rxcat [dig19, dig], dig, .plus isNonSpace]
  , .opt (rxcat [.cls isCommaDot, dig, dig]), chr ' ' ]

/-- Body of the discounted alternative of RECORD_PATTERN before the final
captured adjusted total: name group, item middle, line total, separator,
optional page-break line containing Strona, the Rabat line, separator. -/
def discBody : Rx := rxcat
  [ .grp 1 (.plus isDot), itemMid
  , amt3, chr ',', dig, dig, .plus isNonWord
  , .opt (rxcat [.plus isDot, lit "Strona", .plus isDot, .plus isNonWord])
  , lit "Rabat ", .opt (.cls (fun c => c == '-' || c == '~' || c == '“'))
  , amt3, .cls isCommaDot, dig, dig, .plus isNonWord ]

/-- The captured adjusted total: ddd,dd or dd,dd or d followed by comma or
dot and two digits, in this order. -/
def totalAlt : Rx := altl
  [ rxcat [dig19, dig, dig, chr ',', dig, dig]
  , rxcat [dig19, dig, chr ',', dig, dig]
  , rxcat [dig, .cls isCommaDot, dig, dig] ]

/-- First alternative of DataParser.RECORD_PATTERN: item line followed by a
Rabat line and a final adjusted total captured as group 2. -/
def discounted : Rx := .seq discBody (.grp 2 totalAlt)

/-- Second alternative of DataParser.RECORD_PATTERN: plain item line with
the line total captured as group 4. -/
def plain : Rx := .seq
  (rxcat [.grp 3 (.plus isDot), itemMid])
  (.grp 4 (rxcat [amt3, .cls isCommaDot, dig, dig]))

/-- DataParser.RECORD_PATTERN: the discounted alternative first. -/
def recordPattern : Rx := .alt discounted plain

/-! ## Deterministic date matchers -/

def digVal (c : Char) : Nat := c.toNat - 48

def isSep (c : Char) : Bool := c == '/' || c == '-' || c == '.'

/-- Day field of the date patterns: 01 to 09, 10 to 29, 30 or 31. -/
def dayOk (a b : Char) : Bool :=
  (a == '0' && isDigit19 b) || ((a == '1' || a == '2') && isDigit b)
    || (a == '3' && (b == '0' || b == '1'))

/-- Month field: 01 to 09 or 10 to 12. -/
def monOk (a b : Char) : Bool :=
  (a == '0' && isDigit19 b) || (a == '1' && (b == '0' || b == '1' || b == '2'))

/-- Year field: 19 or 20 followed by two digits. -/
def yrOk (a b c d : Char) : Bool :=
  ((a == '1' && b == '9') || (a == '2' && b == '0')) && isDigit c && isDigit d

/-- Hour field: 00 to 19 or 20 to 23. -/
def hrOk (a b : Char) : Bool :=
  ((a == '0' || a == '1') && isDigit b) || (a == '2' && ('0' ≤ b && b ≤ '3'))

/-- Hand-compiled matcher for DataParser.DATE_PATTERN at position i,
returning capture group 1, the date part without the time. The pattern is
deterministic, so a direct matcher is equivalent to the regex. The 16
characters at positions i to i + 15 are inspected. -/
def matchDateAt (s : List Char) (i : Nat) : Option (List Char) :=
  match (s.drop i).take 16 with
  | [d1, d2, s1, m1, m2, s2, y1, y2, y3, y4, sp, h1, h2, co, n1, n2] =>
      if dayOk d1 d2 && isSep s1 && monOk m1 m2 && isSep s2 && yrOk y1 y2 y3 y4
          && sp == ' ' && hrOk h1 h2 && co == ':' && ('0' ≤ n1 && n1 ≤ '5') && isDigit n2
      then some [d1, d2, s1, m1, m2, s2, y1, y2, y3, y4]
      else none
  | _ => none

/-- Python re.search for DATE_PATTERN: the first position with a match. -/
def dateSearchFrom (s : List Char) : Nat → Nat → Option (List Char)
  | 0, _ => none
  | fuel + 1, i =>
      if i > s.length then none
      else
        match matchDateAt s i with
        | some g => some g
        | none => dateSearchFrom s fuel (i + 1)

def dateSearch (s : List Char) : Option (List Char) :=
  dateSearchFrom s (s.length + 1) 0

/-- Hand-compiled ExcelDataDumper.DATE_FORMAT_PATTERN anchored at the
start of a cell string by re.match, returning the parsed day, month and
year of the leading dd.mm.yyyy token. -/
def matchDateFmt (v : List Char) : Option (Nat × Nat × Nat) :=
  match v.take 10 with
  | [d1, d2, s1, m1, m2, s2, y1, y2, y3, y4] =>
      if dayOk d1 d2 && s1 == '.' && monOk m1 m2 && s2 == '.' && yrOk y1 y2 y3 y4
      then some (10 * digVal d1 + digVal d2, 10 * digVal m1 + digVal m2,
                 1000 * digVal y1 + 100 * digVal y2 + 10 * digVal y3 + digVal y4)
      else none
  | _ => none

def isLeap (y : Nat) : Bool := (y % 4 == 0 && y % 100 != 0) || y % 400 == 0

def daysInMonth (m y : Nat) : Nat :=
  if m == 2 then (if isLeap y then 29 else 28)
  else if m == 4 || m == 6 || m == 9 || m == 11 then 30
  else 31

/-- A point in time as datetime models it for this program: year, month,
day, hour, minute. -/
structure DT where
  y : Nat
  m : Nat
  d : Nat
  hh : Nat
  mi : Nat
deriving DecidableEq

/-- Python datetime comparison: lexicographic on the fields. -/
def dtLtB (a b : DT) : Bool :=
  if a.y ≠ b.y then decide (a.y < b.y)
  else if a.m ≠ b.m then decide (a.m < b.m)
  else if a.d ≠ b.d then decide (a.d < b.d)
  else if a.hh ≠ b.hh then decide (a.hh < b.hh)
  else decide (a.mi < b.mi)

def dtLeB (a b : DT) : Bool := dtLtB a b || a == b

/-! ## Python sorted and comparators -/

/-- Character comparison by code point, as Python compares strings. -/
def cmpChar (a b : Char) : Ordering := compare a.toNat b.toNat

/-- Lexicographic list comparison, as Python compares lists and strings:
first difference decides, a strict prefix is smaller. -/
def cmpList (cmp : α → α → Ordering) : List α → List α → Ordering
  | [], [] => .eq
  | [], _ :: _ => .lt
  | _ :: _, [] => .gt
  | a :: as, b :: bs =>
      match cmp a b with
      | .eq => cmpList cmp as bs
      | o => o

def cmpStr : List Char → List Char → Ordering := cmpList cmpChar

/-- One extracted record is a list of captured strings. -/
abbrev Rec := List (List Char)

/-- A parsed document: captured date string and extracted records. -/
abbrev Doc := List Char × List Rec

instance instDecEqBucket : DecidableEq (List (List Char × List Doc)) :=
  instDecidableEqList

def cmpRec : Rec → Rec → Ordering := cmpList cmpStr

/-- Python tuple comparison: first component decides unless tied. -/
def cmpPairBy (c1 : α → α → Ordering) (c2 : β → β → Ordering) (a b : α × β) : Ordering :=
  match c1 a.1 b.1 with
  | .eq => c2 a.2 b.2
  | o => o

/-- Python tuple comparison for parsed documents: date string first, then
the record list. -/
def cmpDoc : Doc → Doc → Ordering := cmpPairBy cmpStr (cmpList cmpRec)

/-- Python tuple comparison for dict items of the month buckets. -/
def cmpKeyDocs : (List Char × List Doc) → (List Char × List Doc) → Ordering :=
  cmpPairBy cmpStr (cmpList cmpDoc)

/-- The strictly-below test of a comparator. -/
def ltOf (cmp : α → α → Ordering) (a b : α) : Bool := cmp a b == .lt

def docLt : Doc → Doc → Bool := ltOf cmpDoc

def strLt : List Char → List Char → Bool := ltOf cmpStr

def keyDocsLt : (List Char × List Doc) → (List Char × List Doc) → Bool := ltOf cmpKeyDocs

/-- A lawful comparator: structural equality at eq, antisymmetric by swap,
transitive strictly-below. The comparators used by the Python sorted calls
of the source all satisfy these laws. -/
structure LawCmp (cmp : α → α → Ordering) : Prop where
  eq_iff : ∀ a b, cmp a b = .eq ↔ a = b
  swap : ∀ a b, cmp b a = (cmp a b).swap
  lt_trans : ∀ a b c, cmp a b = .lt → cmp b c = .lt → cmp a c = .lt

/-- The two-digit zero-padded decimal form of a number below 100, as it
appears in the day field of a captured date string. -/
def dd2 (n : Nat) : List Char := [Char.ofNat (48 + n / 10), Char.ofNat (48 + n % 10)]

/-- Stable insertion of x into acc: x goes before the first strictly
larger element, hence after every element it ties with. -/
def insOrd (lt : α → α → Bool) (x : α) : List α → List α
  | [] => [x]
  | y :: ys => if lt x y then x :: y :: ys else y :: insOrd lt x ys

/-- The Python built-in sorted: a stable sort by the given strict
comparison. For the total preorders used in this development every stable
sort agrees with the CPython sort, so insertion sort is a faithful model. -/
def pySorted (lt : α → α → Bool) (l : List α) : List α :=
  l.foldl (fun acc x => insOrd lt x acc) []

/-! ## DataParser -/

def slice (s : List Char) (a b : Nat) : List Char := (s.drop a).take (b - a)

/-- Python str.replace of comma by dot. -/
def pyRepl (l : List Char) : List Char :=
  l.map (fun ch => if ch == ',' then '.' else ch)

/-- The captured strings of groups 1 to 4 that are not None, in order. -/
def groupStrs (s : List Char) (c : Caps) : List (List Char) :=
  [1, 2, 3, 4].filterMap (fun n => (getCap c n).map (fun ab => slice s ab.1 ab.2))

/-- The record built from one finditer match: the non-None groups with the
element at index 1 comma-normalized. An IndexError is raised in the source
when fewer than two groups were captured. -/
def extractRecord (s : List Char) (c : Caps) : Except Unit Rec :=
  match groupStrs s c with
  | g0 :: g1 :: rest => .ok (g0 :: pyRepl g1 :: rest)
  | _ => .error ()

/-- DataParser.parse_data_from_pdf: for each document text, the first
DATE_PATTERN match (group 1) and the records of all non-overlapping
RECORD_PATTERN matches. A document without a date match raises, aborting
the whole batch, modelled by the error case. -/
def parse_data_from_pdf (documents : List (List Char)) : Except Unit (List Doc) :=
  documents.mapM (fun doc => do
    let date ← match dateSearch doc with
      | some g => Except.ok g
      | none => Except.error ()
    let recs ← (findAll recordPattern doc).mapM (fun m => extractRecord doc m.2.2)
    Except.ok (date, recs))

/-- The month.year key of a captured date string: the part before the
first space, then the part after the first dot; an IndexError is raised in
the source when the date string has no dot. -/
def monthYear (date : List Char) : Except Unit (List Char) :=
  match (date.takeWhile (fun c => c != ' ')).dropWhile (fun c => c != '.') with
  | _ :: t => .ok t
  | [] => .error ()

/-- Python dict.setdefault followed by append: extend the entry of key if
present, otherwise add a new entry at the end. -/
def dictAppend (acc : List (List Char × List Doc)) (key : List Char) (doc : Doc) :
    List (List Char × List Doc) :=
  match acc with
  | [] => [(key, [doc])]
  | (k, ds) :: t => if k == key then (k, ds ++ [doc]) :: t else (k, ds) :: dictAppend t key doc

/-- DataParser.assign_to_months: group documents by month.year key,
preserving dict insertion order. -/
def assign_to_months (data : List Doc) : Except Unit (List (List Char × List Doc)) :=
  data.foldlM (fun acc doc => do
    let my ← monthYear doc.1
    Except.ok (dictAppend acc my doc)) []

/-- DataParser.parse_data. -/
def parse_data (docs : List (List Char)) : Except Unit (List (List Char × List Doc)) := do
  let data ← parse_data_from_pdf docs
  assign_to_months data

/-! ## GoogleDrive sync planning -/

structure Item where
  id : List Char
  name : List Char
deriving DecidableEq

/-- Month field of the strptime format string, as the Python regex
alternation 1[0-2], 0[1-9], [1-9] produces candidates in priority order:
parsed value with remaining input. -/
def mAlt : List Char → List (Nat × List Char)
  | a :: b :: t =>
      (if a == '1' && ('0' ≤ b && b ≤ '2') then [(10 + digVal b, t)] else []) ++
      (if a == '0' && isDigit19 b then [(digVal b, t)] else []) ++
      (if isDigit19 a then [(digVal a, b :: t)] else [])
  | [a] => if isDigit19 a then [(digVal a, [])] else []
  | [] => []

/-- Day field candidates in regex priority order: 3[01], [12]d, 0[1-9],
[1-9]. -/
def dAlt : List Char → List (Nat × List Char)
  | a :: b :: t =>
      (if a == '3' && (b == '0' || b == '1') then [(30 + digVal b, t)] else []) ++
      (if (a == '1' || a == '2') && isDigit b then [(10 * digVal a + digVal b, t)] else []) ++
      (if a == '0' && isDigit19 b then [(digVal b, t)] else []) ++
      (if isDigit19 a then [(digVal a, b :: t)] else [])
  | [a] => if isDigit19 a then [(digVal a, [])] else []
  | [] => []

def pickD (y m : Nat) : List (Nat × List Char) → Option DT
  | [] => none
  | (d, r) :: t =>
      (if r == ([] : List Char) && d ≤ daysInMonth m y then some ⟨y, m, d, 0, 0⟩ else none).orElse
        (fun _ => pickD y m t)

def pickMD (y : Nat) : List (Nat × List Char) → Option DT
  | [] => none
  | (m, r) :: t => (pickD y m (dAlt r)).orElse (fun _ => pickMD y t)

/-- datetime.strptime with format %Y%m%d: four year digits, then month and
day fields consuming the whole rest, with the datetime constructor
checking the day against the calendar. -/
def strptimeYmd (l : List Char) : Option DT :=
  match l.take 4 with
  | [y1, y2, y3, y4] =>
      if isDigit y1 && isDigit y2 && isDigit y3 && isDigit y4 then
        pickMD (1000 * digVal y1 + 100 * digVal y2 + 10 * digVal y3 + digVal y4)
          (mAlt (l.drop 4))
      else none
  | _ => none

/-- The date the planner derives for a remote file: 20 prepended to the
first six characters of the name, parsed as %Y%m%d. -/
def fileDate (it : Item) : Option DT := strptimeYmd (lc "20" ++ it.name.take 6)

/-- GoogleDrive.compare_dates: keep the files whose derived date is
strictly after the cutoff; an unparseable name raises ValueError, aborting
the call. -/
def compare_dates (items : List Item) (cutoff : DT) : Except Unit (List Item) :=
  items.foldlM (fun acc it =>
    match fileDate it with
    | some d => Except.ok (if dtLtB cutoff d then acc ++ [it] else acc)
    | none => Except.error ()) []

/-- Python str.replace of .pdf by .txt: every non-overlapping occurrence,
left to right. -/
def replacePdfTxt : List Char → List Char
  | [] => []
  | '.' :: 'p' :: 'd' :: 'f' :: t => '.' :: 't' :: 'x' :: 't' :: replacePdfTxt t
  | c :: t => c :: replacePdfTxt t

/-- LocalFileHandler.is_in_local_dir: the walked directory tree is a list
of per-directory file-name lists; present when any directory contains the
name with the pdf extension replaced by txt. -/
def is_in_local_dir (dirs : List (List (List Char))) (it : Item) : Bool :=
  dirs.any (fun files => files.contains (replacePdfTxt it.name))

def find_files_missing_locally (files : List Item) (dirs : List (List (List Char))) :
    List Item :=
  files.filter (fun it => !is_in_local_dir dirs it)

/-- GoogleDrive.validate_to_download: date filter, then local-presence
filter. -/
def validate_to_download (files : List Item) (cutoff : DT)
    (dirs : List (List (List Char))) : Except Unit (List Item) :=
  (compare_dates files cutoff).map (fun items => find_files_missing_locally items dirs)

/-! ## ExcelDataDumper -/

/-- A spreadsheet cell: a string, a number (the float cell value is
modelled exactly by a rational), or an empty cell. -/
inductive Cell where
  | s (v : List Char)
  | num (q : ℚ)
  | blank
deriving DecidableEq

abbrev Row := List Cell

abbrev Sheet := List Row

/-- The workbook: an ordered list of named sheets. -/
structure WB where
  sheets : List (List Char × Sheet)
deriving DecidableEq

def sheetnames (wb : WB) : List (List Char) := wb.sheets.map (fun p => p.1)

/-- Set the title of the first worksheet. -/
def renameFirst (k : List Char) (wb : WB) : WB :=
  match wb.sheets with
  | [] => wb
  | (_, sh) :: t => ⟨(k, sh) :: t⟩

/-- ExcelDataDumper.first_sheet_rename: when the workbook has exactly one
sheet, rename it to the first key; an empty key list raises IndexError. -/
def first_sheet_rename (keys : List (List Char)) (wb : WB) : Except Unit WB :=
  if wb.sheets.length = 1 then
    match keys with
    | [] => .error ()
    | k :: _ => .ok (renameFirst k wb)
  else .ok wb

/-- ExcelDataDumper.create_sheets: append a fresh empty sheet for every
key not already present. -/
def create_sheets (keys : List (List Char)) (wb : WB) : WB :=
  keys.foldl (fun w k =>
    if (sheetnames w).contains k then w else ⟨w.sheets ++ [(k, [])]⟩) wb

/-- ExcelDataDumper.handle_sheets. -/
def handle_sheets (keys : List (List Char)) (wb : WB) : Except Unit WB :=
  (first_sheet_rename keys wb).map (create_sheets keys)

/-- openpyxl max_row: at least 1 even for an empty sheet. -/
def pyMaxRow (sh : Sheet) : Nat := max 1 sh.length

def rowHead (r : Row) : Cell := r.headD .blank

/-- Python truthiness of a cell value as row[0] is tested. -/
def cellTruthy : Cell → Bool
  | .blank => false
  | .s v => !(v == [])
  | .num q => !(q == 0)

def epochDT : DT := ⟨1800, 1, 1, 0, 0⟩

/-- One row of the latest_grocery_date scan: skip falsy first cells, try
the date pattern on string cells, let strptime validate the calendar (a
day out of range raises ValueError). The string form of a float contains a
single dot and can never match the two-dot date pattern, so number cells
are skipped. -/
def dtMaxStep (acc : DT) (row : Row) : Except Unit DT :=
  match rowHead row with
  | .s v =>
      if v == [] then .ok acc
      else
        match matchDateFmt v with
        | some (d, m, y) =>
            if d ≤ daysInMonth m y then
              .ok (if dtLtB acc ⟨y, m, d, 0, 0⟩ then ⟨y, m, d, 0, 0⟩ else acc)
            else .error ()
        | none => .ok acc
  | _ => .ok acc

def latestScanRows (rows : List Row) : Except Unit DT :=
  rows.foldlM dtMaxStep epochDT

/-- ExcelDataDumper.latest_grocery_date: scan the last sheet for
dd.mm.yyyy dates in the first column and return the maximum, or the 1800
sentinel. -/
def latest_grocery_date (wb : WB) : Except Unit DT :=
  match wb.sheets.getLast? with
  | some p => latestScanRows p.2
  | none => .error ()

/-- ExcelDataDumper.save_excel_workbook: wb.save guarded by a handler for
PermissionError that prints a message and swallows the error. Arguments
are the lock state of the backing file, the in-memory workbook and the
previously saved disk content; the result is the new disk content and the
printed-warning flag. The error case is unreachable: the handler never
re-raises. -/
def save_excel_workbook (locked : Bool) (wb disk : WB) : Except Unit (WB × Bool) :=
  if locked then .ok (disk, true) else .ok (wb, false)

def natStr (n : Nat) : List Char := (Nat.repr n).data

def sumFormula (a b : Nat) : List Char :=
  lc "=SUM(B" ++ natStr a ++ lc ":B" ++ natStr b ++ lc ")"

/-- The conditional partial-sum formula of the summary row, with leading
column C or D. -/
def sumifFormula (col : Char) (a b : Nat) : List Char :=
  lc "=SUMIF(" ++ [col] ++ natStr a ++ lc ":" ++ [col] ++ natStr b
    ++ lc ",TRUE,B" ++ natStr a ++ lc ":B" ++ natStr b
    ++ lc ")-SUMIFS(B" ++ natStr a ++ lc ":B" ++ natStr b
    ++ lc ",D" ++ natStr a ++ lc ":D" ++ natStr b
    ++ lc ",TRUE,C" ++ natStr a ++ lc ":C" ++ natStr b ++ lc ",TRUE)/2"

def digitsVal (l : List Char) : Option Nat :=
  l.foldlM (fun a c => if isDigit c then some (10 * a + digVal c) else none) 0

/-- Python float() on the decimal digit strings the extractor produces:
optional integer digits, optional dot, optional fraction digits, at least
one digit overall; the value is modelled exactly as a rational. Other
accepted Python float syntax does not occur in this program and maps to
the error case. -/
def pyFloat (l : List Char) : Option ℚ :=
  let ip := l.takeWhile (fun c => c != '.')
  match l.dropWhile (fun c => c != '.') with
  | [] => if ip == [] then none else (digitsVal ip).map (fun n => mkRat n 1)
  | _ :: fp =>
      if fp.contains '.' then none
      else if ip == [] && fp == [] then none
      else
        (digitsVal ip).bind (fun n =>
          (digitsVal fp).map (fun f =>
            mkRat (n * 10 ^ fp.length + f) (10 ^ fp.length)))

def headerRow : Row := [.s (lc "Nazwa"), .s (lc "Cena"), .s (lc "NAME1"), .s (lc "NAME2")]

/-- One item row: name, float price and two empty flag cells; unpacking a
record without exactly two fields, or an unparseable price, raises. -/
def itemRow : Rec → Except Unit Row
  | [nm, pr] =>
      match pyFloat pr with
      | some q => .ok [.s nm, .num q, .blank, .blank]
      | none => .error ()
  | _ => .error ()

def sumRow (a b : Nat) : Row :=
  [.s (lc "Suma"), .s (sumFormula a b), .s (sumifFormula 'C' a b), .s (sumifFormula 'D' a b)]

/-- The rows insert_data appends for one document on a sheet that
currently has base rows: date row, header row, item rows, summary row
whose formulas span start row base + 3 to end row base + 2 + item count,
then two blank rows. After the date and header rows ws.max_row is
base + 2, so start_row is base + 3 and end_row is max_row after the item
loop. -/
def docRows (base : Nat) (d : Doc) : Except Unit (List Row) := do
  let items ← d.2.mapM itemRow
  Except.ok ([[Cell.s d.1], headerRow] ++ items
    ++ [sumRow (base + 3) (base + 2 + items.length)] ++ [[], []])

def appendDoc (sh : Sheet) (d : Doc) : Except Unit Sheet :=
  (docRows sh.length d).map (fun rows => sh ++ rows)

/-- Update the first sheet of the given name. -/
def setFirst (l : List (List Char × Sheet)) (key : List Char) (sh : Sheet) :
    List (List Char × Sheet) :=
  match l with
  | [] => []
  | (k, s0) :: t => if k == key then (k, sh) :: t else (k, s0) :: setFirst t key sh

def wbSet (wb : WB) (key : List Char) (sh : Sheet) : WB := ⟨setFirst wb.sheets key sh⟩

def wbGet? (wb : WB) (key : List Char) : Option Sheet :=
  (wb.sheets.find? (fun p => p.1 == key)).map (fun p => p.2)

/-- One iteration of the insert_data month loop: look the sheet up
(KeyError when missing), add the two spacer rows when it has more than 4
rows, append the block of every document in sorted order, store back. -/
def insertStep (w : WB) (kv : List Char × List Doc) : Except Unit WB := do
  let sh ← match wbGet? w kv.1 with
    | some sh => Except.ok sh
    | none => Except.error ()
  let sh := if pyMaxRow sh > 4 then sh ++ [[], []] else sh
  let sh ← (pySorted docLt kv.2).foldlM appendDoc sh
  Except.ok (wbSet w kv.1 sh)

/-- ExcelDataDumper.insert_data: create or rename sheets for the sorted
keys, then for each key in sorted item order append two spacer rows when
the sheet already has more than 4 rows, followed by the block of every
document in sorted order. -/
def insert_data (wb : WB) (bucket : List (List Char × List Doc)) : Except Unit WB := do
  let wb₁ ← handle_sheets (pySorted strLt (bucket.map (fun p => p.1))) wb
  (pySorted keyDocsLt bucket).foldlM insertStep wb₁

/-- A row the latest_grocery_date scan handles without raising: its first
cell is not a string, or does not start with a date token, or starts with
a calendar-valid one. -/
def RowOk (row : Row) : Prop :=
  match rowHead row with
  | .s v => matchDateFmt v = none ∨
      ∃ d m y, matchDateFmt v = some (d, m, y) ∧ d ≤ daysInMonth m y
  | _ => True

/-- A document whose block keeps the scan of claim C5 safe and above the
cutoff: its date string starts with a calendar-valid dd.mm.yyyy token
strictly after the cutoff, and every record holds exactly a name that does
not start with a date token plus a price. -/
def DocGood (v₀ : DT) (d : Doc) : Prop :=
  (∃ dd mm yy, matchDateFmt d.1 = some (dd, mm, yy) ∧ dd ≤ daysInMonth mm yy ∧
    dtLtB v₀ ⟨yy, mm, dd, 0, 0⟩ = true) ∧
  ∀ rec ∈ d.2, ∃ nm pr, rec = [nm, pr] ∧ matchDateFmt nm = none

/-- Relation between a sheet entry before and after an append run: same
name, content only extended, and only by rows the scan handles. -/
def WRel (p q : List Char × Sheet) : Prop :=
  p.1 = q.1 ∧ ∃ ex, q.2 = p.2 ++ ex ∧ ∀ row ∈ ex, RowOk row

/-- The whole-workbook append invariant. -/
def InvL (l₁ l₂ : List (List Char × Sheet)) : Prop := List.Forall₂ WRel l₁ l₂

/-- A sheet holding at least one first-column date row that is
calendar-valid and strictly after the cutoff. -/
def SheetDated (v₀ : DT) (sh : Sheet) : Prop :=
  ∃ row ∈ sh, ∃ v d m y, rowHead row = Cell.s v ∧ matchDateFmt v = some (d, m, y) ∧
    d ≤ daysInMonth m y ∧ dtLtB v₀ ⟨y, m, d, 0, 0⟩ = true

/-! ## Concrete inputs used to exercise the claims -/

/-- A receipt line with a Rabat discount: line total 4,50, discount 1,00,
adjusted total 3,50. -/
def exDisc : List Char := lc "Mleko A 1.000 x 4,50 4,50\nRabat -1,00\n3,50"

/-- A receipt text with a date header and no record lines. -/
def exDateOnly : List Char := lc "15.03.2024 18:42"

/-- A document text in which no substring matches the date grammar. -/
def exNoDate : List Char := lc "brak daty"

/-- Receipt at 08:00 whose single item name sorts last. -/
def exT1 : List Char := lc "15.03.2024 08:00\nZzz A 1.000 x 9,99 9,99"

/-- Receipt at 09:00 on the same day whose single item name sorts first. -/
def exT2 : List Char := lc "15.03.2024 09:00\nAaa A 1.000 x 1,00 1,00"

/-- The remote listing of the concrete sync scenario. -/
def exListing : List Item := [⟨lc "id1", lc "240310_receipt.pdf"⟩]

/-- A remote file whose six-character prefix is not a parseable date. -/
def exBadItem : Item := ⟨lc "id2", lc "abcdef_x.pdf"⟩

/-- A ledger whose last sheet records 31.12.2023. -/
def exWbDec : WB :=
  ⟨[(lc "11.2023", [[Cell.s (lc "05.11.2023")]]),
    (lc "12.2023", [[Cell.s (lc "31.12.2023")]])]⟩

/-- A bucket holding one old document in a period sheet that does not
exist in exWbDec. -/
def exBucketOld : List (List Char × List Doc) :=
  [(lc "01.2020", [(lc "05.01.2020", [])])]

/-- A ledger with exactly one sheet that already contains data. -/
def exWbOne : WB := ⟨[(lc "03.2024", [[Cell.s (lc "x")]])]⟩

/-! ## Engine soundness -/

theorem orElse_some {α : Type} {a : Option α} {f : Unit → Option α} {v : α}
    (h : a.orElse f = some v) : a = some v ∨ (a = none ∧ f () = some v) := by
  cases a with
  | none => exact Or.inr ⟨rfl, h⟩
  | some x => exact Or.inl h

theorem tryLens_some {σ : Type} {k : Nat → Option σ} :
    ∀ {n : Nat} {v : σ}, tryLens k n = some v → ∃ m, 1 ≤ m ∧ m ≤ n ∧ k m = some v := by
  intro n
  induction n with
  | zero => intro v h; exact absurd h (by simp [tryLens])
  | succ n ih =>
      intro v h
      rcases orElse_some h with h1 | ⟨-, h1⟩
      · exact ⟨n + 1, by omega, Nat.le_refl _, h1⟩
      · obtain ⟨m, hm1, hm2, hm3⟩ := ih h1
        exact ⟨m, hm1, by omega, hm3⟩

/-- The engine only answers with spans and captures derivable in the
big-step semantics. -/
theorem mrunK_sound {σ : Type} (s : List Char) (r : Rx) :
    ∀ (i : Nat) (c : Caps) (k : Nat → Caps → Option σ) (v : σ),
      mrunK r s i c k = some v → ∃ j c₁, M r s i j c c₁ ∧ k j c₁ = some v := by
  induction r with
  | eps => exact fun i c k v h => ⟨i, c, M.eps, h⟩
  | cls p =>
      intro i c k v h
      simp only [mrunK] at h
      cases hg : s.get? i with
      | none => rw [hg] at h; exact absurd h (by simp)
      | some ch =>
          rw [hg] at h
          cases hp : p ch with
          | false => simp [hp] at h
          | true =>
              simp only [hp, if_true] at h
              exact ⟨i + 1, c, M.cls hg hp, h⟩
  | seq a b iha ihb =>
      intro i c k v h
      simp only [mrunK] at h
      obtain ⟨j, c₁, hm, hk⟩ := iha i c _ v h
      obtain ⟨j₂, c₂, hm₂, hk₂⟩ := ihb j c₁ k v hk
      exact ⟨j₂, c₂, M.seqM hm hm₂, hk₂⟩
  | alt a b iha ihb =>
      intro i c k v h
      simp only [mrunK] at h
      rcases orElse_some h with h1 | ⟨-, h1⟩
      · obtain ⟨j, c₁, hm, hk⟩ := iha i c k v h1
        exact ⟨j, c₁, M.altL hm, hk⟩
      · obtain ⟨j, c₁, hm, hk⟩ := ihb i c k v h1
        exact ⟨j, c₁, M.altR hm, hk⟩
  | grp n r ih =>
      intro i c k v h
      simp only [mrunK] at h
      obtain ⟨j, c₁, hm, hk⟩ := ih i c _ v h
      exact ⟨j, setCap c₁ n i j, M.grpM hm, hk⟩
  | plus p =>
      intro i c k v h
      simp only [mrunK] at h
      obtain ⟨m, hm1, hm2, hm3⟩ := tryLens_some h
      exact ⟨i + m, c, M.plusM hm1 hm2, hm3⟩
  | opt r ih =>
      intro i c k v h
      simp only [mrunK] at h
      rcases orElse_some h with h1 | ⟨-, h1⟩
      · obtain ⟨j, c₁, hm, hk⟩ := ih i c k v h1
        exact ⟨j, c₁, M.optS hm, hk⟩
      · exact ⟨i, c, M.optN, h1⟩

theorem matchAt_sound {r : Rx} {s : List Char} {i e : Nat} {c : Caps}
    (h : matchAt r s i = some (e, c)) : M r s i e [] c := by
  obtain ⟨j, c₁, hm, hk⟩ := mrunK_sound s r i [] _ _ h
  have h2 : (j, c₁) = (e, c) := Option.some.inj hk
  rw [Prod.ext_iff] at h2
  obtain ⟨h3, h4⟩ := h2
  subst h3; subst h4
  exact hm

theorem M_le {r : Rx} {s : List Char} {i j : Nat} {c c₁ : Caps}
    (h : M r s i j c c₁) : i ≤ j := by
  induction h <;> omega

theorem matchAt_le {r : Rx} {s : List Char} {i e : Nat} {c : Caps}
    (h : matchAt r s i = some (e, c)) : i ≤ e := M_le (matchAt_sound h)

/-! ## Capture lemmas -/

theorem getCap_setCap_self (c : Caps) (n a b : Nat) :
    getCap (setCap c n a b) n = some (a, b) := by
  simp [getCap, setCap, List.find?]

theorem getCap_setCap_ne (c : Caps) (n a b g : Nat) (h : g ≠ n) :
    getCap (setCap c n a b) g = getCap c g := by
  have hb : (n == g) = false := beq_eq_false_iff_ne.mpr (Ne.symm h)
  simp [getCap, setCap, List.find?, hb]

theorem getCap_setCap_isSome (c : Caps) (n a b g : Nat)
    (h : (getCap c g).isSome) : (getCap (setCap c n a b) g).isSome := by
  by_cases hg : g = n
  · subst hg; rw [getCap_setCap_self]; rfl
  · rw [getCap_setCap_ne c n a b g hg]; exact h

theorem M_caps_isSome {r : Rx} {s : List Char} {i j : Nat} {c c₁ : Caps}
    (h : M r s i j c c₁) : ∀ g, (getCap c g).isSome → (getCap c₁ g).isSome := by
  induction h with
  | eps => exact fun _ hg => hg
  | cls _ _ => exact fun _ hg => hg
  | seqM h1 h2 ih1 ih2 => exact fun g hg => ih2 g (ih1 g hg)
  | altL h1 ih => exact ih
  | altR h1 ih => exact ih
  | grpM h1 ih => exact fun g hg => getCap_setCap_isSome _ _ _ _ _ (ih g hg)
  | plusM _ _ => exact fun _ hg => hg
  | optS h1 ih => exact ih
  | optN => exact fun _ hg => hg

/-- A match touches no capture group outside the pattern. -/
theorem M_caps_outside {r : Rx} {s : List Char} {i j : Nat} {c c₁ : Caps}
    (h : M r s i j c c₁) : ∀ g, g ∉ rGroups r → getCap c₁ g = getCap c g := by
  induction h with
  | eps => intro g _; rfl
  | cls _ _ => intro g _; rfl
  | seqM h1 h2 ih1 ih2 =>
      intro g hg
      simp only [rGroups, List.mem_append] at hg
      push_neg at hg
      rw [ih2 g hg.2, ih1 g hg.1]
  | altL h1 ih =>
      intro g hg
      simp only [rGroups, List.mem_append] at hg
      push_neg at hg
      exact ih g hg.1
  | altR h1 ih =>
      intro g hg
      simp only [rGroups, List.mem_append] at hg
      push_neg at hg
      exact ih g hg.2
  | grpM h1 ih =>
      intro g hg
      simp only [rGroups, List.mem_cons] at hg
      push_neg at hg
      rw [getCap_setCap_ne _ _ _ _ _ hg.1, ih g hg.2]
  | plusM _ _ => intro g _; rfl
  | optS h1 ih => intro g hg; exact ih g (by simpa [rGroups] using hg)
  | optN => intro g _; rfl

/-- Groups a pattern sets on every successful match are set after one. -/
theorem M_mustSets {r : Rx} {s : List Char} {i j : Nat} {c c₁ : Caps}
    (h : M r s i j c c₁) : ∀ g ∈ mustSets r, (getCap c₁ g).isSome := by
  induction h with
  | eps => intro g hg; simp [mustSets] at hg
  | cls _ _ => intro g hg; simp [mustSets] at hg
  | plusM _ _ => intro g hg; simp [mustSets] at hg
  | optS h1 ih => intro g hg; simp [mustSets] at hg
  | optN => intro g hg; simp [mustSets] at hg
  | seqM h1 h2 ih1 ih2 =>
      intro g hg
      simp only [mustSets, List.mem_append] at hg
      rcases hg with hga | hgb
      · exact M_caps_isSome h2 g (ih1 g hga)
      · exact ih2 g hgb
  | altL h1 ih =>
      intro g hg
      simp only [mustSets] at hg
      exact ih g (List.mem_inter_iff.mp hg).1
  | altR h1 ih =>
      intro g hg
      simp only [mustSets] at hg
      exact ih g (List.mem_inter_iff.mp hg).2
  | grpM h1 ih =>
      intro g hg
      simp only [mustSets, List.mem_cons] at hg
      rcases hg with rfl | hg
      · rw [getCap_setCap_self]; rfl
      · exact getCap_setCap_isSome _ _ _ _ _ (ih g hg)

/-- In the discounted alternative the group 2 capture is the final span of
the match: the adjusted total stands at the very end. -/
theorem M_discounted_cap2 {s : List Char} {i j : Nat} {c c₁ : Caps}
    (h : M discounted s i j c c₁) : ∃ a, getCap c₁ 2 = some (a, j) := by
  have h' : M (.seq discBody (.grp 2 totalAlt)) s i j c c₁ := h
  cases h' with
  | seqM h1 h2 =>
      cases h2 with
      | grpM h3 => exact ⟨_, getCap_setCap_self _ _ _ _⟩

/-- Ordered alternation takes the first alternative when it matches. -/
theorem matchAt_alt_first {a b : Rx} {s : List Char} {i e : Nat} {c : Caps}
    (h : matchAt a s i = some (e, c)) : matchAt (.alt a b) s i = some (e, c) := by
  unfold matchAt at h ⊢
  simp only [mrunK]
  rw [h]
  rfl

theorem groupStrs_eval {s : List Char} {c : Caps} {nm : Nat × Nat} {a e : Nat}
    (h1 : getCap c 1 = some nm) (h2 : getCap c 2 = some (a, e))
    (h3 : getCap c 3 = none) (h4 : getCap c 4 = none) :
    groupStrs s c = [slice s nm.1 nm.2, slice s a e] := by
  simp [groupStrs, h1, h2, h3, h4]

/-! ## Scanning lemmas -/

theorem scanFrom_mem_bounds (r : Rx) (s : List Char) :
    ∀ (fuel i : Nat), ∀ m ∈ scanFrom r s fuel i, i ≤ m.1 ∧ m.1 ≤ m.2.1 := by
  intro fuel
  induction fuel with
  | zero => intro i m hm; simp [scanFrom] at hm
  | succ fuel ih =>
      intro i m hm
      simp only [scanFrom] at hm
      split at hm
      · simp at hm
      · split at hm
        next e c hmt =>
          rcases List.mem_cons.mp hm with rfl | hm'
          · exact ⟨Nat.le_refl _, matchAt_le hmt⟩
          · have hb := ih _ m hm'
            have h1 : i + 1 ≤ max e (i + 1) := Nat.le_max_right _ _
            exact ⟨by omega, hb.2⟩
        next hmt =>
          have hb := ih _ m hm
          exact ⟨by omega, hb.2⟩

/-- The matches emitted by the scan do not overlap: each ends no later
than the next begins. -/
theorem scanFrom_chain (r : Rx) (s : List Char) :
    ∀ (fuel i : Nat), List.Chain' (fun x y => x.2.1 ≤ y.1) (scanFrom r s fuel i) := by
  intro fuel
  induction fuel with
  | zero => intro i; simp [scanFrom]
  | succ fuel ih =>
      intro i
      simp only [scanFrom]
      split
      · simp
      · split
        next e c hmt =>
          refine List.chain'_cons'.mpr ⟨?_, ih _⟩
          intro y hy
          have hb := scanFrom_mem_bounds r s fuel (max e (i + 1)) y
            (List.mem_of_mem_head? hy)
          have h1 : e ≤ max e (i + 1) := Nat.le_max_left _ _
          exact Nat.le_trans h1 hb.1
        next => exact ih _

theorem mapM_ok_length {α β : Type} (f : α → Except Unit β) :
    ∀ (l : List α) (r : List β), l.mapM f = .ok r → r.length = l.length := by
  intro l
  induction l with
  | nil =>
      intro r h
      simp only [List.mapM_nil] at h
      cases h
      rfl
  | cons a t ih =>
      intro r h
      rw [List.mapM_cons] at h
      cases hfa : f a with
      | error e => rw [hfa] at h; exact absurd h (by simp [Bind.bind, Except.bind])
      | ok b =>
          rw [hfa] at h
          cases hmt : t.mapM f with
          | error e =>
              rw [hmt] at h
              exact absurd h (by simp [Bind.bind, Except.bind, Pure.pure])
          | ok bs =>
              rw [hmt] at h
              simp only [Bind.bind, Except.bind, Pure.pure, Except.pure] at h
              cases h
              simp [ih bs hmt]

/-! ## Claim C1 -/

/-- C1: whenever the discounted alternative of RECORD_PATTERN matches at a
position, RECORD_PATTERN produces exactly that match there, and the record
the extractor builds from it carries as its price the group 2 capture, the
post-discount adjusted total whose span ends at the end of the match,
comma-normalized; the earlier pre-discount line total lies strictly inside
the span and is not captured. -/
theorem claim_C1 (s : List Char) (i e : Nat) (c : Caps)
    (h : matchAt discounted s i = some (e, c)) :
    matchAt recordPattern s i = some (e, c) ∧
      ∃ a nm, getCap c 1 = some nm ∧ getCap c 2 = some (a, e) ∧
        extractRecord s c = .ok [slice s nm.1 nm.2, pyRepl (slice s a e)] := by
  have hpri : matchAt recordPattern s i = some (e, c) := matchAt_alt_first h
  have hM : M discounted s i e [] c := matchAt_sound h
  obtain ⟨a, ha⟩ := M_discounted_cap2 hM
  have h1s := M_mustSets hM 1 (by decide)
  obtain ⟨nm, hnm⟩ := Option.isSome_iff_exists.mp h1s
  have h3 : getCap c 3 = none := by rw [M_caps_outside hM 3 (by decide)]; rfl
  have h4 : getCap c 4 = none := by rw [M_caps_outside hM 4 (by decide)]; rfl
  refine ⟨hpri, a, nm, hnm, ha, ?_⟩
  rw [extractRecord, groupStrs_eval hnm ha h3 h4]

theorem claim_C1_witness :
    matchAt discounted exDisc 0 = some (42, [(2, 38, 42), (1, 0, 5)]) ∧
      (matchAt recordPattern exDisc 0 = some (42, [(2, 38, 42), (1, 0, 5)]) ∧
        ∃ a nm, getCap [(2, 38, 42), (1, 0, 5)] 1 = some nm ∧
          getCap [(2, 38, 42), (1, 0, 5)] 2 = some (a, 42) ∧
          extractRecord exDisc [(2, 38, 42), (1, 0, 5)] =
            .ok [slice exDisc nm.1 nm.2, pyRepl (slice exDisc a 42)]) :=
  ⟨by decide, claim_C1 exDisc 0 42 [(2, 38, 42), (1, 0, 5)] (by decide)⟩

/-! ## Claim C9 -/

/-- C9: the discounted alternative takes priority at every position where
it matches, the matches of the full-text scan are pairwise non-overlapping
in scan order, and the extractor builds exactly one record per match, so a
record block matched by the discounted variant never also yields a
separate plain-variant item inside its span. -/
theorem claim_C9 (s : List Char) :
    List.Chain' (fun x y => x.2.1 ≤ y.1) (findAll recordPattern s) ∧
      (∀ i e c, matchAt discounted s i = some (e, c) →
        matchAt recordPattern s i = some (e, c)) ∧
      (∀ recs, (findAll recordPattern s).mapM (fun m => extractRecord s m.2.2) = .ok recs →
        recs.length = (findAll recordPattern s).length) := by
  refine ⟨scanFrom_chain _ _ _ _, fun i e c h => matchAt_alt_first h, fun recs h => ?_⟩
  exact mapM_ok_length _ _ recs h

theorem claim_C9_witness :
    matchAt recordPattern exDisc 0 = some (42, [(2, 38, 42), (1, 0, 5)]) ∧
      ([[lc "Mleko", lc "3.50"]] : List Rec).length = (findAll recordPattern exDisc).length :=
  ⟨(claim_C9 exDisc).2.1 0 42 [(2, 38, 42), (1, 0, 5)] (by decide),
    (claim_C9 exDisc).2.2 [[lc "Mleko", lc "3.50"]] (by decide)⟩

/-! ## Claim C2 -/

/-- C2: a document without a date match makes the whole batch fail, since
the source calls group on the None that search returns; the remaining
documents yield no results, although the well-formed document parses fine
on its own. This contradicts the claim that such a document is dropped
while the rest of the batch is still parsed. -/
theorem claim_C2_bug :
    parse_data_from_pdf [exNoDate, exDateOnly] = .error () ∧
      parse_data_from_pdf [exDateOnly] = .ok [(lc "15.03.2024", [])] :=
  ⟨by decide, by decide⟩

/-! ## Claim C7 -/

/-- C7: a remote file whose six-character prefix is not parseable as a
date makes strptime raise, so the whole planning call fails; the remaining
files get no plan, although the well-formed listing alone is planned. This
contradicts the claim that such a file is merely excluded. -/
theorem claim_C7_bug :
    validate_to_download (exBadItem :: exListing) ⟨2024, 3, 1, 0, 0⟩ [] = .error () ∧
      validate_to_download exListing ⟨2024, 3, 1, 0, 0⟩ [] = .ok exListing :=
  ⟨by decide, by decide⟩

/-! ## Claim C8 -/

/-- C8 counterexample: a save attempt on a locked ledger file returns
normally rather than failing the run: the PermissionError handler prints
and swallows the error, so nothing is reported to the caller. -/
theorem claim_C8_counterexample :
    save_excel_workbook true exWbOne exWbDec = .ok (exWbDec, true) := by decide

/-- C8 as amended: on a locked backing file the save error is caught and
swallowed with a printed console message, the run continues, and the
previously saved ledger content on disk is left intact. -/
theorem claim_C8 (wb disk : WB) :
    save_excel_workbook true wb disk = .ok (disk, true) := rfl

/-! ## Claim C4 -/

theorem compare_dates_go (cutoff : DT) :
    ∀ (files : List Item) (acc : List Item),
      (∀ it ∈ files, (fileDate it).isSome) →
      files.foldlM (fun acc it =>
          match fileDate it with
          | some d => Except.ok (if dtLtB cutoff d then acc ++ [it] else acc)
          | none => Except.error ()) acc
        = .ok (acc ++ files.filter (fun it =>
            match fileDate it with
            | some d => dtLtB cutoff d
            | none => false)) := by
  intro files
  induction files with
  | nil => intro acc h; simp only [List.foldlM_nil, List.filter_nil, List.append_nil]; rfl
  | cons a t ih =>
      intro acc h
      obtain ⟨d, hd⟩ := Option.isSome_iff_exists.mp (h a (List.mem_cons_self a t))
      have ht : ∀ it ∈ t, (fileDate it).isSome :=
        fun it hit => h it (List.mem_cons_of_mem _ hit)
      have hbind : ∀ (x : List Item) (g : List Item → Except Unit (List Item)),
          Except.ok x >>= g = g x := fun _ _ => rfl
      rw [List.foldlM_cons]
      cases hc : dtLtB cutoff d with
      | true =>
          simp only [hd, hc, reduceIte]
          rw [hbind, ih _ ht]
          simp [List.filter_cons, hd, hc, List.append_assoc]
      | false =>
          simp only [hd, hc, reduceIte]
          rw [hbind, ih _ ht]
          simp [List.filter_cons, hd, hc]

theorem compare_dates_filter (files : List Item) (cutoff : DT)
    (h : ∀ it ∈ files, (fileDate it).isSome) :
    compare_dates files cutoff = .ok (files.filter (fun it =>
      match fileDate it with
      | some d => dtLtB cutoff d
      | none => false)) := by
  have hg := compare_dates_go cutoff files [] h
  simpa [compare_dates] using hg

/-- C4: when every listed name carries a parseable date prefix, the sync
plan is exactly the original-order sublist of files whose derived date
20YYMMDD is strictly after the cutoff and whose name with pdf replaced by
txt is not present in the local staging tree; and the two concrete
scenario instances: the 240310 listing is fully included at cutoff
2024-03-01 and excluded at cutoff 2024-03-15. -/
theorem claim_C4 (files : List Item) (cutoff : DT) (dirs : List (List (List Char)))
    (h : ∀ it ∈ files, (fileDate it).isSome) :
    validate_to_download files cutoff dirs =
      .ok (files.filter (fun it =>
        (match fileDate it with
         | some d => dtLtB cutoff d
         | none => false) && !is_in_local_dir dirs it)) ∧
      validate_to_download exListing ⟨2024, 3, 1, 0, 0⟩ [] = .ok exListing ∧
      validate_to_download exListing ⟨2024, 3, 15, 0, 0⟩ [] = .ok [] := by
  refine ⟨?_, by decide, by decide⟩
  rw [validate_to_download, compare_dates_filter files cutoff h]
  simp only [Except.map]
  rw [find_files_missing_locally, List.filter_filter]
  refine congrArg Except.ok (List.filter_congr ?_)
  intro x _
  rw [Bool.and_comm]

theorem claim_C4_witness :
    validate_to_download exListing ⟨2024, 3, 1, 0, 0⟩ [] =
      .ok (exListing.filter (fun it =>
        (match fileDate it with
         | some d => dtLtB ⟨2024, 3, 1, 0, 0⟩ d
         | none => false) && !is_in_local_dir [] it)) :=
  (claim_C4 exListing ⟨2024, 3, 1, 0, 0⟩ [] (by decide)).1

/-! ## Comparator laws -/

theorem charOfNat_digit_toNat : ∀ x : Nat, x < 10 → (Char.ofNat (48 + x)).toNat = 48 + x := by
  decide

theorem lawCmpChar : LawCmp cmpChar := by
  constructor
  · intro a b
    constructor
    · intro hh
      have h2 : a.val.toNat = b.val.toNat := Nat.compare_eq_eq.mp hh
      exact Char.eq_of_val_eq (UInt32.toNat.inj h2)
    · intro hh; subst hh; exact Nat.compare_eq_eq.mpr rfl
  · intro a b
    simp only [cmpChar]
    rcases Nat.lt_trichotomy a.toNat b.toNat with hh | hh | hh
    · rw [Nat.compare_eq_gt.mpr hh, Nat.compare_eq_lt.mpr hh]; rfl
    · rw [Nat.compare_eq_eq.mpr hh.symm, Nat.compare_eq_eq.mpr hh]; rfl
    · rw [Nat.compare_eq_lt.mpr hh, Nat.compare_eq_gt.mpr hh]; rfl
  · intro a b c h1 h2
    exact Nat.compare_eq_lt.mpr
      (Nat.lt_trans (Nat.compare_eq_lt.mp h1) (Nat.compare_eq_lt.mp h2))

theorem cmpList_refl {cmp : α → α → Ordering} (h : LawCmp cmp) :
    ∀ l, cmpList cmp l l = .eq := by
  intro l
  induction l with
  | nil => rfl
  | cons x xs ih =>
      show (match cmp x x with
            | .eq => cmpList cmp xs xs
            | o => o) = .eq
      rw [(h.eq_iff x x).mpr rfl]
      exact ih

theorem cmpList_eq_of {cmp : α → α → Ordering} (h : LawCmp cmp) :
    ∀ l1 l2, cmpList cmp l1 l2 = .eq → l1 = l2 := by
  intro l1
  induction l1 with
  | nil =>
      intro l2 hh
      cases l2 with
      | nil => rfl
      | cons y ys => exact Ordering.noConfusion hh
  | cons x xs ih =>
      intro l2 hh
      cases l2 with
      | nil => exact Ordering.noConfusion hh
      | cons y ys =>
          simp only [cmpList] at hh
          cases hxy : cmp x y with
          | eq =>
              rw [hxy] at hh
              have hh2 : cmpList cmp xs ys = .eq := hh
              rw [(h.eq_iff x y).mp hxy, ih ys hh2]
          | lt => rw [hxy] at hh; exact Ordering.noConfusion hh
          | gt => rw [hxy] at hh; exact Ordering.noConfusion hh

theorem cmpList_swap {cmp : α → α → Ordering} (h : LawCmp cmp) :
    ∀ l1 l2, cmpList cmp l2 l1 = (cmpList cmp l1 l2).swap := by
  intro l1
  induction l1 with
  | nil => intro l2; cases l2 <;> rfl
  | cons x xs ih =>
      intro l2
      cases l2 with
      | nil => rfl
      | cons y ys =>
          simp only [cmpList]
          cases hxy : cmp x y with
          | eq => rw [h.swap x y, hxy]; exact ih ys
          | lt => rw [h.swap x y, hxy]; rfl
          | gt => rw [h.swap x y, hxy]; rfl

theorem cmpList_lt_trans {cmp : α → α → Ordering} (h : LawCmp cmp) :
    ∀ l1 l2 l3, cmpList cmp l1 l2 = .lt → cmpList cmp l2 l3 = .lt →
      cmpList cmp l1 l3 = .lt := by
  intro l1
  induction l1 with
  | nil =>
      intro l2 l3 h12 h23
      cases l2 with
      | nil => exact Ordering.noConfusion h12
      | cons y ys =>
          cases l3 with
          | nil => exact Ordering.noConfusion h23
          | cons z zs => rfl
  | cons x xs ih =>
      intro l2 l3 h12 h23
      cases l2 with
      | nil => exact Ordering.noConfusion h12
      | cons y ys =>
          cases l3 with
          | nil => exact Ordering.noConfusion h23
          | cons z zs =>
              simp only [cmpList] at h12 h23 ⊢
              cases hxy : cmp x y with
              | eq =>
                  rw [hxy] at h12
                  have h12' : cmpList cmp xs ys = .lt := h12
                  have hexy := (h.eq_iff x y).mp hxy
                  cases hyz : cmp y z with
                  | eq =>
                      rw [hyz] at h23
                      have h23' : cmpList cmp ys zs = .lt := h23
                      rw [hexy, hyz]
                      exact ih ys zs h12' h23'
                  | lt => rw [hexy, hyz]
                  | gt => rw [hyz] at h23; exact Ordering.noConfusion h23
              | lt =>
                  cases hyz : cmp y z with
                  | eq =>
                      have heyz := (h.eq_iff y z).mp hyz
                      rw [← heyz, hxy]
                  | lt => rw [h.lt_trans x y z hxy hyz]
                  | gt => rw [hyz] at h23; exact Ordering.noConfusion h23
              | gt => rw [hxy] at h12; exact Ordering.noConfusion h12

theorem lawCmpList {cmp : α → α → Ordering} (h : LawCmp cmp) : LawCmp (cmpList cmp) :=
  ⟨fun a b => ⟨cmpList_eq_of h a b, fun hh => hh ▸ cmpList_refl h a⟩,
   fun a b => cmpList_swap h a b,
   fun a b c => cmpList_lt_trans h a b c⟩

theorem lawCmpPair {c1 : α → α → Ordering} {c2 : β → β → Ordering}
    (h1 : LawCmp c1) (h2 : LawCmp c2) : LawCmp (cmpPairBy c1 c2) := by
  constructor
  · intro a b
    constructor
    · intro hh
      simp only [cmpPairBy] at hh
      cases hx : c1 a.1 b.1 with
      | eq =>
          rw [hx] at hh
          have hh2 : c2 a.2 b.2 = .eq := hh
          exact Prod.ext ((h1.eq_iff _ _).mp hx) ((h2.eq_iff _ _).mp hh2)
      | lt => rw [hx] at hh; exact Ordering.noConfusion hh
      | gt => rw [hx] at hh; exact Ordering.noConfusion hh
    · intro hh
      subst hh
      simp only [cmpPairBy]
      rw [(h1.eq_iff a.1 a.1).mpr rfl]
      exact (h2.eq_iff _ _).mpr rfl
  · intro a b
    simp only [cmpPairBy]
    cases hx : c1 a.1 b.1 with
    | eq => rw [h1.swap a.1 b.1, hx]; exact h2.swap a.2 b.2
    | lt => rw [h1.swap a.1 b.1, hx]; rfl
    | gt => rw [h1.swap a.1 b.1, hx]; rfl
  · intro a b c hab hbc
    simp only [cmpPairBy] at hab hbc ⊢
    cases hx : c1 a.1 b.1 with
    | eq =>
        rw [hx] at hab
        have hab' : c2 a.2 b.2 = .lt := hab
        have hexy := (h1.eq_iff _ _).mp hx
        cases hy : c1 b.1 c.1 with
        | eq =>
            rw [hy] at hbc
            have hbc' : c2 b.2 c.2 = .lt := hbc
            rw [hexy, hy]
            exact h2.lt_trans _ _ _ hab' hbc'
        | lt => rw [hexy, hy]
        | gt => rw [hy] at hbc; exact Ordering.noConfusion hbc
    | lt =>
        cases hy : c1 b.1 c.1 with
        | eq =>
            have heyz := (h1.eq_iff _ _).mp hy
            rw [← heyz, hx]
        | lt => rw [h1.lt_trans _ _ _ hx hy]
        | gt => rw [hy] at hbc; exact Ordering.noConfusion hbc
    | gt => rw [hx] at hab; exact Ordering.noConfusion hab

theorem lawCmpStr : LawCmp cmpStr := lawCmpList lawCmpChar

theorem lawCmpDoc : LawCmp cmpDoc := lawCmpPair lawCmpStr (lawCmpList (lawCmpList lawCmpStr))

theorem lawCmpKeyDocs : LawCmp cmpKeyDocs := lawCmpPair lawCmpStr (lawCmpList lawCmpDoc)

/-! ## Sorting lemmas -/

theorem ordBeq_true {o p : Ordering} : (o == p) = true ↔ o = p := by
  cases o <;> cases p <;> decide

theorem ltOf_iff {cmp : α → α → Ordering} {a b : α} :
    ltOf cmp a b = true ↔ cmp a b = .lt := by
  show (cmp a b == Ordering.lt) = true ↔ cmp a b = .lt
  exact ordBeq_true

theorem ltOf_asymm {cmp : α → α → Ordering} (h : LawCmp cmp) {a b : α}
    (hab : ltOf cmp a b = true) : ltOf cmp b a = false := by
  have h1 : cmp a b = .lt := ltOf_iff.mp hab
  have h2 : cmp b a = .gt := by rw [h.swap a b, h1]; rfl
  show (cmp b a == Ordering.lt) = false
  rw [h2]; rfl

theorem ltOf_trans {cmp : α → α → Ordering} (h : LawCmp cmp) {a b c : α}
    (h1 : ltOf cmp a b = true) (h2 : ltOf cmp b c = true) : ltOf cmp a c = true := by
  show (cmp a c == Ordering.lt) = true
  rw [h.lt_trans a b c (ltOf_iff.mp h1) (ltOf_iff.mp h2)]; rfl

theorem insOrd_mem {lt : α → α → Bool} (x : α) :
    ∀ (l : List α) (z : α), z ∈ insOrd lt x l ↔ z = x ∨ z ∈ l := by
  intro l
  induction l with
  | nil => intro z; simp [insOrd]
  | cons y ys ih =>
      intro z
      simp only [insOrd]
      by_cases hxy : lt x y = true
      · rw [if_pos hxy]; simp [List.mem_cons]
      · rw [if_neg hxy]
        simp only [List.mem_cons, ih z]
        tauto

theorem insOrd_pairwise {cmp : α → α → Ordering} (h : LawCmp cmp) (x : α) :
    ∀ (l : List α), List.Pairwise (fun a b => ltOf cmp b a = false) l →
      List.Pairwise (fun a b => ltOf cmp b a = false) (insOrd (ltOf cmp) x l) := by
  intro l
  induction l with
  | nil => intro _; simp [insOrd]
  | cons y ys ih =>
      intro hp
      rw [List.pairwise_cons] at hp
      simp only [insOrd]
      by_cases hxy : ltOf cmp x y = true
      · rw [if_pos hxy]
        refine List.pairwise_cons.mpr ⟨?_, List.pairwise_cons.mpr ⟨hp.1, hp.2⟩⟩
        intro z hz
        rcases List.mem_cons.mp hz with rfl | hz'
        · exact ltOf_asymm h hxy
        · cases hzx : ltOf cmp z x with
          | false => rfl
          | true =>
              have hzz := ltOf_trans h hzx hxy
              rw [hp.1 z hz'] at hzz
              exact absurd hzz (by decide)
      · rw [if_neg hxy]
        have hxy2 : ltOf cmp x y = false := by
          revert hxy; cases ltOf cmp x y <;> simp
        refine List.pairwise_cons.mpr ⟨?_, ih hp.2⟩
        intro z hz
        rcases (insOrd_mem x ys z).mp hz with rfl | hz'
        · exact hxy2
        · exact hp.1 z hz'

theorem pySorted_pairwise {cmp : α → α → Ordering} (h : LawCmp cmp) (l : List α) :
    List.Pairwise (fun a b => ltOf cmp b a = false) (pySorted (ltOf cmp) l) := by
  suffices hs : ∀ (l2 : List α) (acc : List α),
      List.Pairwise (fun a b => ltOf cmp b a = false) acc →
      List.Pairwise (fun a b => ltOf cmp b a = false)
        (l2.foldl (fun acc x => insOrd (ltOf cmp) x acc) acc) by
    exact hs l [] (by simp)
  intro l2
  induction l2 with
  | nil => intro acc hacc; simpa using hacc
  | cons x xs ih =>
      intro acc hacc
      exact ih _ (insOrd_pairwise h x acc hacc)

theorem sorted_get_lt {cmp : α → α → Ordering} (h : LawCmp cmp) (l : List α)
    (hp : List.Pairwise (fun a b => ltOf cmp b a = false) l)
    (i j : Fin l.length) (hlt : cmp (l.get i) (l.get j) = .lt) : i < j := by
  rcases lt_trichotomy i j with hij | hij | hij
  · exact hij
  · rw [hij] at hlt
    rw [(h.eq_iff _ _).mpr rfl] at hlt
    exact absurd hlt (by decide)
  · have hr := List.pairwise_iff_get.mp hp j i hij
    have ht : ltOf cmp (l.get i) (l.get j) = true := ltOf_iff.mpr hlt
    rw [hr] at ht
    exact absurd ht (by decide)

/-! ## Claim C3 -/

/-- C3 counterexample: the two receipts exT1 (08:00) and exT2 (09:00) fall
on the same day of the same period; the captured date strings carry no
time of day, so the later 09:00 receipt is written first because the tie
between equal date strings is broken by comparing the record lists, where
Aaa sorts before Zzz. This refutes ordering by transaction date precise to
the minute. -/
theorem claim_C3_counterexample :
    parse_data [exT1, exT2] = .ok [(lc "03.2024",
        [(lc "15.03.2024", [[lc "Zzz", lc "9.99"]]),
         (lc "15.03.2024", [[lc "Aaa", lc "1.00"]])])] ∧
      pySorted docLt
          [(lc "15.03.2024", [[lc "Zzz", lc "9.99"]]),
           (lc "15.03.2024", [[lc "Aaa", lc "1.00"]])]
        = [(lc "15.03.2024", [[lc "Aaa", lc "1.00"]]),
           (lc "15.03.2024", [[lc "Zzz", lc "9.99"]])] :=
  ⟨by decide, by decide⟩

/-- C3 as amended: insert_data processes period keys in sorted order, and
within one period it writes documents in ascending order of their captured
date strings, which hold only dd.mm.yyyy. Two documents of the same
period whose days differ are written chronologically: the pySorted docLt
call of insert_data places the smaller day strictly earlier. Same-day
documents are tie-broken by record-list comparison, not by time. -/
theorem claim_C3 (keys : List (List Char)) (data : List Doc) (d1 d2 : Doc)
    (a b : Nat) (rest : List Char) (ha : a < 100) (hb : b < 100) (hab : a < b)
    (h1 : d1.1 = dd2 a ++ rest) (h2 : d2.1 = dd2 b ++ rest)
    (i j : Fin (pySorted docLt data).length)
    (hi : (pySorted docLt data).get i = d1) (hj : (pySorted docLt data).get j = d2) :
    List.Pairwise (fun x y => strLt y x = false) (pySorted strLt keys) ∧ i < j := by
  constructor
  · exact pySorted_pairwise lawCmpStr keys
  · have hs : cmpStr d1.1 d2.1 = .lt := by
      rw [h1, h2]
      have h10 : a / 10 < 10 := by omega
      have h20 : b / 10 < 10 := by omega
      have h30 : a % 10 < 10 := by omega
      have h40 : b % 10 < 10 := by omega
      simp only [dd2, List.cons_append, List.nil_append, cmpStr, cmpList, cmpChar]
      rw [charOfNat_digit_toNat _ h10, charOfNat_digit_toNat _ h20,
          charOfNat_digit_toNat _ h30, charOfNat_digit_toNat _ h40]
      rcases Nat.lt_trichotomy (a / 10) (b / 10) with hd | hd | hd
      · rw [Nat.compare_eq_lt.mpr (by omega)]
      · rw [Nat.compare_eq_eq.mpr (by omega), Nat.compare_eq_lt.mpr (by omega)]
      · omega
    have hlt : cmpDoc ((pySorted docLt data).get i) ((pySorted docLt data).get j) = .lt := by
      rw [hi, hj]
      simp only [cmpDoc, cmpPairBy, hs]
    exact sorted_get_lt lawCmpDoc _ (pySorted_pairwise lawCmpDoc data) i j hlt

/-! ## Claim C6 -/

theorem create_sheets_cons (a : List Char) (keys : List (List Char)) (wb : WB) :
    create_sheets (a :: keys) wb =
      create_sheets keys
        (if (sheetnames wb).contains a then wb else ⟨wb.sheets ++ [(a, [])]⟩) := by
  rw [create_sheets, create_sheets, List.foldl_cons]

theorem cs_append (keys : List (List Char)) :
    ∀ wb : WB, ∃ new, (create_sheets keys wb).sheets = wb.sheets ++ new := by
  induction keys with
  | nil => intro wb; exact ⟨[], by simp [create_sheets]⟩
  | cons a t ih =>
      intro wb
      rw [create_sheets_cons]
      by_cases hc : (sheetnames wb).contains a = true
      · rw [if_pos hc]; exact ih wb
      · rw [if_neg hc]
        obtain ⟨new, hnew⟩ := ih ⟨wb.sheets ++ [(a, [])]⟩
        exact ⟨[(a, [])] ++ new, by rw [hnew]; simp [List.append_assoc]⟩

theorem cs_names_mono (keys : List (List Char)) (wb : WB) (k : List Char)
    (h : k ∈ sheetnames wb) : k ∈ sheetnames (create_sheets keys wb) := by
  obtain ⟨new, hn⟩ := cs_append keys wb
  simp only [sheetnames, hn, List.map_append, List.mem_append]
  exact Or.inl h

theorem cs_mem (keys : List (List Char)) :
    ∀ (wb : WB) (k : List Char), k ∈ keys → k ∈ sheetnames (create_sheets keys wb) := by
  induction keys with
  | nil => intro wb k hk; simp at hk
  | cons a t ih =>
      intro wb k hk
      rw [create_sheets_cons]
      rcases List.mem_cons.mp hk with rfl | hk'
      · apply cs_names_mono
        by_cases hc : (sheetnames wb).contains k = true
        · rw [if_pos hc]; simpa using hc
        · rw [if_neg hc]; simp [sheetnames]
      · exact ih _ k hk'

theorem cs_skip (keys : List (List Char)) :
    ∀ wb : WB, (∀ k ∈ keys, k ∈ sheetnames wb) → create_sheets keys wb = wb := by
  induction keys with
  | nil => intro wb _; rfl
  | cons a t ih =>
      intro wb hks
      rw [create_sheets_cons,
        if_pos (by simpa using hks a (List.mem_cons_self a t))]
      exact ih wb (fun k hk => hks k (List.mem_cons_of_mem _ hk))

/-- C6 counterexample: a ledger whose single sheet 03.2024 already holds
data is nevertheless renamed to 04.2024 by handle_sheets: the rename
condition of the source checks only the sheet count, never whether the
sheet is unused. -/
theorem claim_C6_counterexample :
    (handle_sheets [lc "04.2024"] exWbOne).map sheetnames = .ok [lc "04.2024"] ∧
      exWbOne.sheets.map (fun p => p.2) = [[[Cell.s (lc "x")]]] :=
  ⟨by decide, by decide⟩

/-- C6 as amended: on a workbook with at least one sheet, handle_sheets
renames the single existing sheet to the first given key whenever the
workbook has exactly one sheet, whether or not it is unused; with more
than one sheet nothing is renamed and new sheets are only appended. The
call is idempotent: running it again on its own result changes nothing. -/
theorem claim_C6 (keys : List (List Char)) (wb wb' : WB) (hnz : wb.sheets ≠ [])
    (h : handle_sheets keys wb = .ok wb') :
    (wb.sheets.length ≠ 1 → ∃ new, wb'.sheets = wb.sheets ++ new) ∧
      (wb.sheets.length = 1 → ∃ kh kt n₀ sh new, keys = kh :: kt ∧
        wb.sheets = [(n₀, sh)] ∧ wb'.sheets = (kh, sh) :: new) ∧
      handle_sheets keys wb' = .ok wb' := by
  rw [handle_sheets] at h
  cases hr : first_sheet_rename keys wb with
  | error e => rw [hr] at h; exact absurd h (by simp [Except.map])
  | ok wb₁ =>
      rw [hr] at h
      simp only [Except.map] at h
      have hwb' : wb' = create_sheets keys wb₁ := by
        cases h; rfl
      unfold first_sheet_rename at hr
      by_cases hl : wb.sheets.length = 1
      · -- exactly one sheet: it is renamed to keys.head
        rw [if_pos hl] at hr
        obtain ⟨n₀, sh, hsh⟩ : ∃ n₀ sh, wb.sheets = [(n₀, sh)] := by
          cases hsheets : wb.sheets with
          | nil => rw [hsheets] at hl; simp at hl
          | cons p t =>
              cases t with
              | nil => cases p with | mk pn ps => exact ⟨pn, ps, rfl⟩
              | cons q u => rw [hsheets] at hl; simp at hl
        cases hk : keys with
        | nil =>
            rw [hk] at hr
            exact Except.noConfusion hr
        | cons kh kt =>
            rw [hk] at hr
            have hr' : Except.ok (renameFirst kh wb) = Except.ok wb₁ := hr
            have hwb₁ : wb₁ = renameFirst kh wb := by cases hr'; rfl
            have hren : renameFirst kh wb = ⟨[(kh, sh)]⟩ := by
              unfold renameFirst
              rw [hsh]
            rw [hren] at hwb₁
            obtain ⟨new, hnew⟩ := cs_append keys wb₁
            rw [hk] at hnew
            refine ⟨fun hc => absurd hl hc, fun _ => ⟨kh, kt, n₀, sh, new, rfl, hsh, ?_⟩, ?_⟩
            · rw [hwb']
              rw [hk]
              rw [hnew, hwb₁]
              rfl
            · -- idempotence
              have hnames : ∀ k ∈ kh :: kt, k ∈ sheetnames wb' := by
                intro k hks
                rw [hwb', hk]
                exact cs_mem _ wb₁ k hks
              rw [handle_sheets]
              have hws : wb'.sheets = (kh, sh) :: new := by
                rw [hwb', hk, hnew, hwb₁]
                rfl
              have hfr : first_sheet_rename (kh :: kt) wb' = .ok wb' := by
                unfold first_sheet_rename
                by_cases hl' : wb'.sheets.length = 1
                · rw [if_pos hl']
                  have hnewnil : new = [] := by
                    rw [hws] at hl'
                    simpa using hl'
                  have hwfull : wb' = ⟨[(kh, sh)]⟩ := by
                    rw [show wb' = WB.mk wb'.sheets from rfl, hws, hnewnil]
                  show Except.ok (renameFirst kh wb') = Except.ok wb'
                  rw [hwfull]
                  rfl
                · rw [if_neg hl']
              rw [hfr]
              simp only [Except.map]
              rw [cs_skip _ wb' hnames]
      · -- more than one sheet or none: no rename
        rw [if_neg hl] at hr
        have hwb₁ : wb₁ = wb := by cases hr; rfl
        subst hwb₁
        obtain ⟨new, hnew⟩ := cs_append keys wb₁
        refine ⟨fun _ => ⟨new, by rw [hwb', hnew]⟩, fun hc => absurd hc hl, ?_⟩
        have hnames : ∀ k ∈ keys, k ∈ sheetnames wb' := by
          intro k hks
          rw [hwb']
          exact cs_mem keys wb₁ k hks
        have hlen : wb'.sheets.length = wb₁.sheets.length + new.length := by
          rw [hwb', hnew]; simp
        rw [handle_sheets]
        have hfr : first_sheet_rename keys wb' = .ok wb' := by
          unfold first_sheet_rename
          by_cases hl' : wb'.sheets.length = 1
          · -- the original had at least one sheet but not exactly one, so
            -- it had at least two and the result cannot have exactly one
            have h0 : wb₁.sheets.length ≠ 0 := by
              intro hz
              exact hnz (List.length_eq_zero.mp hz)
            exfalso
            omega
          · rw [if_neg hl']
        rw [hfr]
        simp only [Except.map]
        rw [cs_skip keys wb' hnames]

theorem claim_C6_witness :
    ((⟨[(lc "03.2024", [[Cell.s (lc "x")]])]⟩ : WB).sheets.length ≠ 1 →
        ∃ new, (⟨[(lc "04.2024", [[Cell.s (lc "x")]])]⟩ : WB).sheets =
          (⟨[(lc "03.2024", [[Cell.s (lc "x")]])]⟩ : WB).sheets ++ new) ∧
      ((⟨[(lc "03.2024", [[Cell.s (lc "x")]])]⟩ : WB).sheets.length = 1 →
        ∃ kh kt n₀ sh new, [lc "04.2024"] = kh :: kt ∧
          (⟨[(lc "03.2024", [[Cell.s (lc "x")]])]⟩ : WB).sheets = [(n₀, sh)] ∧
          (⟨[(lc "04.2024", [[Cell.s (lc "x")]])]⟩ : WB).sheets = (kh, sh) :: new) ∧
      handle_sheets [lc "04.2024"] ⟨[(lc "04.2024", [[Cell.s (lc "x")]])]⟩ =
        .ok ⟨[(lc "04.2024", [[Cell.s (lc "x")]])]⟩ :=
  claim_C6 [lc "04.2024"] ⟨[(lc "03.2024", [[Cell.s (lc "x")]])]⟩
    ⟨[(lc "04.2024", [[Cell.s (lc "x")]])]⟩ (by decide) (by decide)

theorem claim_C3_witness :
    List.Pairwise (fun x y => strLt y x = false) (pySorted strLt [lc "03.2024"]) ∧
      (⟨0, by decide⟩ : Fin (pySorted docLt
        [(lc "15.03.2024", ([] : List Rec)), (lc "05.03.2024", ([] : List Rec))]).length)
        < ⟨1, by decide⟩ :=
  claim_C3 [lc "03.2024"]
    [(lc "15.03.2024", []), (lc "05.03.2024", [])]
    (lc "05.03.2024", []) (lc "15.03.2024", []) 5 15 (lc ".03.2024")
    (by decide) (by decide) (by decide) (by decide) (by decide)
    ⟨0, by decide⟩ ⟨1, by decide⟩ (by decide) (by decide)

/-! ## Claim C10 -/

/-- C10: a document whose text matches the date grammar but yields no
record match is returned with an empty record list, not dropped and
without error; it is still grouped under its month.year period; and the
block insert_data appends for it consists of the date row, the header
row, no item rows, a summary row whose formulas span the empty interval
from start row base + 3 to end row base + 2, and two blank rows. -/
theorem claim_C10 (doc ds : List Char)
    (hd : dateSearch doc = some ds)
    (hr : findAll recordPattern doc = []) :
    parse_data_from_pdf [doc] = .ok [(ds, [])] ∧
      (∀ my, monthYear ds = .ok my → parse_data [doc] = .ok [(my, [(ds, [])])]) ∧
      (∀ base, docRows base (ds, []) =
        .ok [[Cell.s ds], headerRow, sumRow (base + 3) (base + 2), [], []]) := by
  have h1 : parse_data_from_pdf [doc] = .ok [(ds, [])] := by
    simp only [parse_data_from_pdf, List.mapM_cons, List.mapM_nil, hd, hr]
    rfl
  refine ⟨h1, fun my hmy => ?_, fun base => ?_⟩
  · rw [parse_data]
    rw [h1]
    show assign_to_months [(ds, [])] = .ok [(my, [(ds, [])])]
    simp only [assign_to_months, List.foldlM_cons, List.foldlM_nil, hmy]
    rfl
  · rfl

theorem claim_C10_witness :
    parse_data_from_pdf [exDateOnly] = .ok [(lc "15.03.2024", [])] ∧
      parse_data [exDateOnly] = .ok [(lc "03.2024", [(lc "15.03.2024", [])])] ∧
      docRows 0 (lc "15.03.2024", []) =
        .ok [[Cell.s (lc "15.03.2024")], headerRow, sumRow 3 2, [], []] := by
  have h := claim_C10 exDateOnly (lc "15.03.2024") (by decide) (by decide)
  exact ⟨h.1, h.2.1 (lc "03.2024") (by decide), h.2.2 0⟩

/-! ## Datetime ordering lemmas -/

theorem dtLtB_iff (a b : DT) : dtLtB a b = true ↔
    (a.y < b.y ∨ (a.y = b.y ∧ (a.m < b.m ∨ (a.m = b.m ∧ (a.d < b.d ∨ (a.d = b.d ∧
      (a.hh < b.hh ∨ (a.hh = b.hh ∧ a.mi < b.mi)))))))) := by
  unfold dtLtB
  by_cases h1 : a.y = b.y <;> by_cases h2 : a.m = b.m <;>
    by_cases h3 : a.d = b.d <;> by_cases h4 : a.hh = b.hh <;>
    simp [h1, h2, h3, h4] <;> omega

theorem dtLeB_iff (a b : DT) : dtLeB a b = true ↔ (dtLtB a b = true ∨ a = b) := by
  unfold dtLeB
  rw [Bool.or_eq_true, beq_iff_eq]

theorem dtLeB_refl (a : DT) : dtLeB a a = true := by
  rw [dtLeB_iff]; exact Or.inr rfl

theorem dt_eq_of_fields {a b : DT} (h : a.y = b.y ∧ a.m = b.m ∧ a.d = b.d ∧
    a.hh = b.hh ∧ a.mi = b.mi) : a = b := by
  cases a; cases b
  simp only [DT.mk.injEq]
  simp only at h
  exact ⟨h.1, h.2.1, h.2.2.1, h.2.2.2.1, h.2.2.2.2⟩

theorem dtLtB_trans {a b c : DT} (h1 : dtLtB a b = true) (h2 : dtLtB b c = true) :
    dtLtB a c = true := by
  rw [dtLtB_iff] at h1 h2 ⊢
  omega

theorem dtLeB_trans {a b c : DT} (h1 : dtLeB a b = true) (h2 : dtLeB b c = true) :
    dtLeB a c = true := by
  rw [dtLeB_iff] at h1 h2 ⊢
  rcases h1 with h1 | rfl
  · rcases h2 with h2 | rfl
    · exact Or.inl (dtLtB_trans h1 h2)
    · exact Or.inl h1
  · exact h2

theorem dtLeB_of_lt {a b : DT} (h : dtLtB a b = true) : dtLeB a b = true := by
  rw [dtLeB_iff]; exact Or.inl h

theorem dtLeB_max_left (acc g : DT) :
    dtLeB acc (if dtLtB acc g = true then g else acc) = true := by
  by_cases h : dtLtB acc g = true
  · rw [if_pos h]; exact dtLeB_of_lt h
  · rw [if_neg h]; exact dtLeB_refl acc

theorem dtLeB_max_right (acc g : DT) :
    dtLeB g (if dtLtB acc g = true then g else acc) = true := by
  by_cases h : dtLtB acc g = true
  · rw [if_pos h]; exact dtLeB_refl g
  · rw [if_neg h]
    rw [dtLeB_iff]
    rw [dtLtB_iff] at h ⊢
    by_cases he : g = acc
    · exact Or.inr he
    · refine Or.inl ?_
      have hne : ¬ (g.y = acc.y ∧ g.m = acc.m ∧ g.d = acc.d ∧ g.hh = acc.hh ∧
          g.mi = acc.mi) := fun hh => he (dt_eq_of_fields hh)
      omega

/-! ## Scan lemmas for the latest date -/

theorem dtMaxStep_rowOk {row : Row} (h : RowOk row) (acc : DT) :
    ∃ r, dtMaxStep acc row = .ok r ∧ dtLeB acc r = true := by
  unfold dtMaxStep
  unfold RowOk at h
  cases hc : rowHead row with
  | blank => exact ⟨acc, rfl, dtLeB_refl acc⟩
  | num q => exact ⟨acc, rfl, dtLeB_refl acc⟩
  | s v =>
      rw [hc] at h
      have h' : matchDateFmt v = none ∨
          ∃ d m y, matchDateFmt v = some (d, m, y) ∧ d ≤ daysInMonth m y := h
      by_cases hv : (v == []) = true
      · simp only [hv, reduceIte]
        exact ⟨acc, rfl, dtLeB_refl acc⟩
      · have hv' : (v == []) = false := by revert hv; cases (v == []) <;> simp
        simp only [hv', Bool.false_eq_true, reduceIte]
        rcases h' with hnone | ⟨d, m, y, hsome, hval⟩
        · simp only [hnone]
          exact ⟨acc, rfl, dtLeB_refl acc⟩
        · simp only [hsome, if_pos hval]
          exact ⟨_, rfl, dtLeB_max_left acc ⟨y, m, d, 0, 0⟩⟩

theorem matchDateFmt_nil : matchDateFmt [] = none := rfl

theorem dtMaxStep_dated {row : Row} {v : List Char} {d m y : Nat}
    (hc : rowHead row = .s v) (hsome : matchDateFmt v = some (d, m, y))
    (hval : d ≤ daysInMonth m y) (acc : DT) :
    dtMaxStep acc row =
      .ok (if dtLtB acc ⟨y, m, d, 0, 0⟩ = true then ⟨y, m, d, 0, 0⟩ else acc) := by
  have hv : (v == []) = false := by
    cases v with
    | nil => rw [matchDateFmt_nil] at hsome; exact Option.noConfusion hsome
    | cons c t => rfl
  unfold dtMaxStep
  simp only [hc, hv, Bool.false_eq_true, reduceIte, hsome, if_pos hval]

theorem scanGood {rows : List Row} (h : ∀ row ∈ rows, RowOk row) :
    ∀ acc : DT, ∃ r, rows.foldlM dtMaxStep acc = .ok r ∧ dtLeB acc r = true := by
  induction rows with
  | nil => intro acc; exact ⟨acc, rfl, dtLeB_refl acc⟩
  | cons row rest ih =>
      intro acc
      obtain ⟨r₁, hr₁, hle₁⟩ := dtMaxStep_rowOk (h row (List.mem_cons_self row rest)) acc
      obtain ⟨r₂, hr₂, hle₂⟩ := ih (fun q hq => h q (List.mem_cons_of_mem _ hq)) r₁
      refine ⟨r₂, ?_, dtLeB_trans hle₁ hle₂⟩
      rw [List.foldlM_cons, hr₁]
      exact hr₂

theorem scanDated {rows : List Row} {row₀ : Row} {v : List Char} {d m y : Nat}
    (hall : ∀ row ∈ rows, RowOk row) (hmem : row₀ ∈ rows)
    (hc : rowHead row₀ = .s v) (hsome : matchDateFmt v = some (d, m, y))
    (hval : d ≤ daysInMonth m y) :
    ∀ acc : DT, ∃ r, rows.foldlM dtMaxStep acc = .ok r ∧
      dtLeB ⟨y, m, d, 0, 0⟩ r = true := by
  induction rows with
  | nil => exact absurd hmem (List.not_mem_nil row₀)
  | cons row rest ih =>
      intro acc
      rcases List.mem_cons.mp hmem with rfl | hmem'
      · rw [List.foldlM_cons, dtMaxStep_dated hc hsome hval acc]
        obtain ⟨r₂, hr₂, hle₂⟩ :=
          scanGood (fun q hq => hall q (List.mem_cons_of_mem _ hq))
            (if dtLtB acc ⟨y, m, d, 0, 0⟩ = true then ⟨y, m, d, 0, 0⟩ else acc)
        exact ⟨r₂, hr₂, dtLeB_trans (dtLeB_max_right acc ⟨y, m, d, 0, 0⟩) hle₂⟩
      · obtain ⟨r₁, hr₁, _⟩ :=
          dtMaxStep_rowOk (hall row (List.mem_cons_self row rest)) acc
        obtain ⟨r₂, hr₂, hd₂⟩ :=
          ih (fun q hq => hall q (List.mem_cons_of_mem _ hq)) hmem' r₁
        refine ⟨r₂, ?_, hd₂⟩
        rw [List.foldlM_cons, hr₁]
        exact hr₂

theorem exceptBind_ok {α β : Type} {x : Except Unit α} {f : α → Except Unit β} {r : β}
    (h : (x >>= f) = .ok r) : ∃ m, x = .ok m ∧ f m = .ok r := by
  cases x with
  | error e => exact absurd h (by simp [Bind.bind, Except.bind])
  | ok m => exact ⟨m, rfl, h⟩

/-! ## More sorting facts -/

theorem insOrd_length {lt : α → α → Bool} (x : α) :
    ∀ l : List α, (insOrd lt x l).length = l.length + 1 := by
  intro l
  induction l with
  | nil => rfl
  | cons y ys ih =>
      simp only [insOrd]
      by_cases hxy : lt x y = true
      · rw [if_pos hxy]; rfl
      · rw [if_neg hxy]; simp [ih]

theorem pySorted_length {lt : α → α → Bool} (l : List α) :
    (pySorted lt l).length = l.length := by
  suffices hs : ∀ (l2 acc : List α),
      (l2.foldl (fun acc x => insOrd lt x acc) acc).length = acc.length + l2.length by
    simpa using hs l []
  intro l2
  induction l2 with
  | nil => intro acc; simp
  | cons x xs ih =>
      intro acc
      rw [List.foldl_cons, ih (insOrd lt x acc), insOrd_length]
      simp only [List.length_cons]
      omega

theorem pySorted_mem {lt : α → α → Bool} (l : List α) (z : α) :
    z ∈ pySorted lt l ↔ z ∈ l := by
  suffices hs : ∀ (l2 acc : List α),
      (z ∈ l2.foldl (fun acc x => insOrd lt x acc) acc ↔ z ∈ acc ∨ z ∈ l2) by
    have hh := hs l []
    simpa using hh
  intro l2
  induction l2 with
  | nil => intro acc; simp
  | cons x xs ih =>
      intro acc
      rw [List.foldl_cons, ih (insOrd lt x acc), insOrd_mem]
      simp [List.mem_cons]
      tauto

theorem mapM_ok_mem {α β : Type} (f : α → Except Unit β) :
    ∀ (l : List α) (r : List β), l.mapM f = .ok r →
      ∀ y ∈ r, ∃ x ∈ l, f x = .ok y := by
  intro l
  induction l with
  | nil =>
      intro r h y hy
      simp only [List.mapM_nil] at h
      cases h
      simp at hy
  | cons a t ih =>
      intro r h y hy
      rw [List.mapM_cons] at h
      obtain ⟨b, hb, h2⟩ := exceptBind_ok h
      obtain ⟨bs, hbs, h3⟩ := exceptBind_ok h2
      have h4 : Except.ok (b :: bs) = Except.ok r := h3
      cases h4
      rcases List.mem_cons.mp hy with rfl | hy'
      · exact ⟨a, List.mem_cons_self a t, hb⟩
      · obtain ⟨x, hx, hfx⟩ := ih bs hbs y hy'
        exact ⟨x, List.mem_cons_of_mem _ hx, hfx⟩

/-! ## The rows one document appends -/

theorem itemRow_rowOk {rec : Rec} {row : Row}
    (hshape : ∃ nm pr, rec = [nm, pr] ∧ matchDateFmt nm = none)
    (h : itemRow rec = .ok row) : RowOk row := by
  obtain ⟨nm, pr, rfl, hnone⟩ := hshape
  have h' : (match pyFloat pr with
      | some q => Except.ok ([Cell.s nm, Cell.num q, Cell.blank, Cell.blank] : Row)
      | none => (Except.error () : Except Unit Row)) = Except.ok row := h
  cases hq : pyFloat pr with
  | none => rw [hq] at h'; exact Except.noConfusion h'
  | some q =>
      rw [hq] at h'
      have h2 : Except.ok ([Cell.s nm, Cell.num q, Cell.blank, Cell.blank]) =
          Except.ok row := h'
      cases h2
      show RowOk [Cell.s nm, Cell.num q, Cell.blank, Cell.blank]
      unfold RowOk
      exact Or.inl hnone

theorem headerRow_rowOk : RowOk headerRow := by
  unfold RowOk
  exact Or.inl (by decide)

theorem sumRow_rowOk (a b : Nat) : RowOk (sumRow a b) := by
  unfold RowOk
  exact Or.inl (by decide)

theorem blankRow_rowOk : RowOk ([] : Row) := by
  unfold RowOk
  exact trivial

theorem docRows_good {v₀ : DT} {base : Nat} {d : Doc} {rows : List Row}
    (hg : DocGood v₀ d) (h : docRows base d = .ok rows) :
    (∀ row ∈ rows, RowOk row) ∧ [Cell.s d.1] ∈ rows := by
  unfold docRows at h
  obtain ⟨items, hitems, h2⟩ := exceptBind_ok h
  have h3 : Except.ok ([[Cell.s d.1], headerRow] ++ items
      ++ [sumRow (base + 3) (base + 2 + items.length)] ++ [[], []]) =
      Except.ok rows := h2
  cases h3
  constructor
  · intro row hrow
    rcases List.mem_append.mp hrow with hL | hBlanks
    · rcases List.mem_append.mp hL with hAI | hSum
      · rcases List.mem_append.mp hAI with hA | hItems
        · rcases List.mem_cons.mp hA with rfl | hA2
          · unfold RowOk
            obtain ⟨dd, mm, yy, hfmt, hval, _⟩ := hg.1
            exact Or.inr ⟨dd, mm, yy, hfmt, hval⟩
          · rcases List.mem_cons.mp hA2 with rfl | hA3
            · exact headerRow_rowOk
            · exact absurd hA3 (List.not_mem_nil row)
        · obtain ⟨rec, hrec, hrow⟩ := mapM_ok_mem itemRow d.2 items hitems row hItems
          exact itemRow_rowOk (hg.2 rec hrec) hrow
      · rcases List.mem_cons.mp hSum with rfl | h0
        · exact sumRow_rowOk _ _
        · exact absurd h0 (List.not_mem_nil row)
    · rcases List.mem_cons.mp hBlanks with rfl | hB2
      · exact blankRow_rowOk
      · rcases List.mem_cons.mp hB2 with rfl | hB3
        · exact blankRow_rowOk
        · exact absurd hB3 (List.not_mem_nil row)
  · exact List.mem_append_left _
      (List.mem_append_left _ (List.mem_append_left _ (List.mem_cons_self _ _)))

theorem appendDoc_good {v₀ : DT} {sh sh₂ : Sheet} {d : Doc}
    (hg : DocGood v₀ d) (h : appendDoc sh d = .ok sh₂) :
    ∃ rows, sh₂ = sh ++ rows ∧ (∀ row ∈ rows, RowOk row) ∧ [Cell.s d.1] ∈ rows := by
  unfold appendDoc at h
  cases hdr : docRows sh.length d with
  | error e => rw [hdr] at h; exact absurd h (by simp [Except.map])
  | ok rows =>
      rw [hdr] at h
      have h2 : Except.ok (sh ++ rows) = Except.ok sh₂ := h
      cases h2
      obtain ⟨hok, hmem⟩ := docRows_good hg hdr
      exact ⟨rows, rfl, hok, hmem⟩

theorem appendDocs_fold {v₀ : DT} :
    ∀ (docs : List Doc) (sh sh₂ : Sheet), (∀ d ∈ docs, DocGood v₀ d) →
      docs.foldlM appendDoc sh = .ok sh₂ →
      ∃ ex, sh₂ = sh ++ ex ∧ (∀ row ∈ ex, RowOk row) ∧
        (docs ≠ [] → ∃ d ∈ docs, [Cell.s d.1] ∈ ex) := by
  intro docs
  induction docs with
  | nil =>
      intro sh sh₂ _ h
      have h2 : Except.ok sh = Except.ok sh₂ := h
      cases h2
      exact ⟨[], by simp, by simp, fun hc => absurd rfl hc⟩
  | cons d rest ih =>
      intro sh sh₂ hgood h
      rw [List.foldlM_cons] at h
      obtain ⟨sh₁, hsh₁, h2⟩ := exceptBind_ok h
      obtain ⟨rows, rfl, hrok, hmem⟩ :=
        appendDoc_good (hgood d (List.mem_cons_self d rest)) hsh₁
      obtain ⟨ex, rfl, hexok, _⟩ :=
        ih (sh ++ rows) sh₂ (fun q hq => hgood q (List.mem_cons_of_mem _ hq)) h2
      refine ⟨rows ++ ex, by simp [List.append_assoc], ?_, ?_⟩
      · intro row hrow
        rcases List.mem_append.mp hrow with hr | hr
        · exact hrok row hr
        · exact hexok row hr
      · intro _
        exact ⟨d, List.mem_cons_self d rest, List.mem_append_left ex hmem⟩

/-! ## Workbook append invariant -/

theorem WRel_refl (p : List Char × Sheet) : WRel p p :=
  ⟨rfl, [], by simp, by simp⟩

theorem InvL_refl (l : List (List Char × Sheet)) : InvL l l := by
  induction l with
  | nil => exact List.Forall₂.nil
  | cons p t ih => exact List.Forall₂.cons (WRel_refl p) ih

theorem InvL_trans : ∀ {l₁ l₂ l₃ : List (List Char × Sheet)},
    InvL l₁ l₂ → InvL l₂ l₃ → InvL l₁ l₃ := by
  intro l₁ l₂ l₃ h12
  induction h12 generalizing l₃ with
  | nil => intro h23; cases h23; exact List.Forall₂.nil
  | cons hpq h' ih =>
      intro h23
      cases h23 with
      | cons hqr h'' =>
          refine List.Forall₂.cons ⟨hpq.1.trans hqr.1, ?_⟩ (ih h'')
          obtain ⟨e1, he1, hok1⟩ := hpq.2
          obtain ⟨e2, he2, hok2⟩ := hqr.2
          exact ⟨e1 ++ e2, by rw [he2, he1, List.append_assoc],
            fun row hr => (List.mem_append.mp hr).elim (hok1 row) (hok2 row)⟩

theorem InvL_names : ∀ {l₁ l₂ : List (List Char × Sheet)}, InvL l₁ l₂ →
    l₁.map (fun p => p.1) = l₂.map (fun p => p.1) := by
  intro l₁ l₂ h
  induction h with
  | nil => rfl
  | cons hpq h' ih => simp only [List.map_cons, hpq.1, ih]

theorem InvL_getLast : ∀ {l₁ l₂ : List (List Char × Sheet)}, InvL l₁ l₂ →
    ∀ p₁, l₁.getLast? = some p₁ →
      ∃ p₂, l₂.getLast? = some p₂ ∧ WRel p₁ p₂ := by
  intro l₁ l₂ h
  induction h with
  | nil => intro p₁ hp; exact absurd hp (by simp)
  | @cons a b t₁ t₂ hpq h' ih =>
      intro p₁ hp
      cases h' with
      | nil =>
          rw [List.getLast?_singleton] at hp
          cases hp
          exact ⟨b, List.getLast?_singleton b, hpq⟩
      | @cons a₂ b₂ u₁ u₂ hpq₂ h'' =>
          rw [List.getLast?_cons_cons] at hp
          obtain ⟨p₂, hp₂, hrel⟩ := ih p₁ hp
          rw [List.getLast?_cons_cons]
          exact ⟨p₂, hp₂, hrel⟩

theorem find?_key_cons_pos {a : List Char × Sheet} {t : List (List Char × Sheet)}
    {key : List Char} (hk : (a.1 == key) = true) :
    List.find? (fun p => p.1 == key) (a :: t) = some a :=
  List.find?_cons_of_pos _ hk

theorem find?_key_cons_neg {a : List Char × Sheet} {t : List (List Char × Sheet)}
    {key : List Char} (hk : ¬ (a.1 == key) = true) :
    List.find? (fun p => p.1 == key) (a :: t) = List.find? (fun p => p.1 == key) t :=
  List.find?_cons_of_neg _ hk

theorem InvL_find? : ∀ {l₁ l₂ : List (List Char × Sheet)}, InvL l₁ l₂ →
    ∀ (key : List Char) (p₁ : List Char × Sheet),
      l₁.find? (fun p => p.1 == key) = some p₁ →
      ∃ p₂ ex, l₂.find? (fun p => p.1 == key) = some p₂ ∧ p₂.1 = p₁.1 ∧
        p₂.2 = p₁.2 ++ ex ∧ ∀ row ∈ ex, RowOk row := by
  intro l₁ l₂ h
  induction h with
  | nil => intro key p₁ hp; exact absurd hp (by simp)
  | @cons a b t₁ t₂ hpq h' ih =>
      intro key p₁ hp
      by_cases hk : (a.1 == key) = true
      · rw [find?_key_cons_pos hk] at hp
        cases hp
        have hk2 : (b.1 == key) = true := by rw [← hpq.1]; exact hk
        obtain ⟨ex, hex, hok⟩ := hpq.2
        exact ⟨b, ex, find?_key_cons_pos hk2, hpq.1.symm, hex, hok⟩
      · rw [find?_key_cons_neg hk] at hp
        have hk2 : ¬ (b.1 == key) = true := by rw [← hpq.1]; exact hk
        obtain ⟨p₂, ex, hfind, he1, he2, hok⟩ := ih key p₁ hp
        exact ⟨p₂, ex, by rw [find?_key_cons_neg hk2]; exact hfind, he1, he2, hok⟩

theorem setFirst_invL : ∀ (l : List (List Char × Sheet)) (key : List Char)
    (c : Sheet) (ex : List Row),
    (l.find? (fun p => p.1 == key)).map (fun p => p.2) = some c →
    (∀ row ∈ ex, RowOk row) →
    InvL l (setFirst l key (c ++ ex)) := by
  intro l
  induction l with
  | nil => intro key c ex hf _; exact absurd hf (by simp)
  | cons a t ih =>
      intro key c ex hf hok
      cases a with
      | mk k₀ s₀ =>
          unfold setFirst
          by_cases hk : (k₀ == key) = true
          · rw [show List.find? (fun p => p.1 == key) ((k₀, s₀) :: t) = some (k₀, s₀) from
              find?_key_cons_pos hk] at hf
            have hf2 : some s₀ = some c := hf
            cases Option.some.inj hf2
            rw [if_pos hk]
            exact List.Forall₂.cons ⟨rfl, ex, rfl, hok⟩ (InvL_refl t)
          · rw [show List.find? (fun p => p.1 == key) ((k₀, s₀) :: t) =
              List.find? (fun p => p.1 == key) t from find?_key_cons_neg hk] at hf
            rw [if_neg hk]
            exact List.Forall₂.cons (WRel_refl (k₀, s₀)) (ih key c ex hf hok)

theorem wbGet_wbSet_self : ∀ (l : List (List Char × Sheet)) (key : List Char)
    (sh : Sheet), ((l.find? (fun p => p.1 == key)).map (fun p => p.2)).isSome →
    ((setFirst l key sh).find? (fun p => p.1 == key)).map (fun p => p.2) = some sh := by
  intro l
  induction l with
  | nil => intro key sh hf; simp at hf
  | cons a t ih =>
      intro key sh hf
      cases a with
      | mk k₀ s₀ =>
          unfold setFirst
          by_cases hk : (k₀ == key) = true
          · rw [if_pos hk,
              show List.find? (fun p => p.1 == key) ((k₀, sh) :: t) = some (k₀, sh) from
                find?_key_cons_pos hk]
            rfl
          · rw [if_neg hk,
              show List.find? (fun p => p.1 == key) ((k₀, s₀) :: setFirst t key sh) =
                List.find? (fun p => p.1 == key) (setFirst t key sh) from
                find?_key_cons_neg hk]
            rw [show List.find? (fun p => p.1 == key) ((k₀, s₀) :: t) =
              List.find? (fun p => p.1 == key) t from find?_key_cons_neg hk] at hf
            exact ih key sh hf

theorem foldlM_append_except {α β : Type} (f : β → α → Except Unit β) :
    ∀ (l1 l2 : List α) (b : β),
      (l1 ++ l2).foldlM f b = l1.foldlM f b >>= fun x => l2.foldlM f x := by
  intro l1
  induction l1 with
  | nil => intro l2 b; rfl
  | cons a t ih =>
      intro l2 b
      rw [List.cons_append, List.foldlM_cons, List.foldlM_cons]
      cases hfa : f b a with
      | error e => rfl
      | ok v =>
          show (t ++ l2).foldlM f v = t.foldlM f v >>= fun x => l2.foldlM f x
          exact ih l2 v

/-! ## The insert_data fold, sheet by sheet -/

theorem contains_false_not_mem {l : List (List Char)} {a : List Char}
    (h : l.contains a = false) : a ∉ l := by
  intro hm
  rw [List.contains_eq_any_beq] at h
  have h2 : (l.any fun x => a == x) = true :=
    List.any_eq_true.mpr (Exists.intro a (And.intro hm (beq_self_eq_true a)))
  rw [h2] at h
  exact Bool.noConfusion h

theorem setFirst_names (key : List Char) (sh : Sheet) :
    ∀ l : List (List Char × Sheet),
      (setFirst l key sh).map (fun p => p.1) = l.map (fun p => p.1) := by
  intro l
  induction l with
  | nil => rfl
  | cons a t ih =>
      cases a with
      | mk k₀ s₀ =>
          unfold setFirst
          by_cases hk : (k₀ == key) = true
          · rw [if_pos hk]
            rfl
          · rw [if_neg hk]
            simp only [List.map_cons, ih]

theorem setFirst_mem_name {l : List (List Char × Sheet)} {key : List Char} {sh : Sheet}
    {p : List Char × Sheet} (hp : p ∈ setFirst l key sh) :
    p.1 ∈ l.map (fun q => q.1) := by
  have h1 : p.1 ∈ (setFirst l key sh).map (fun q => q.1) :=
    List.mem_map_of_mem _ hp
  rw [setFirst_names] at h1
  exact h1

theorem setFirst_append_last_ne (kq : List Char) (s : Sheet) (key : List Char)
    (ns : Sheet) (hne : (kq == key) = false) :
    ∀ front : List (List Char × Sheet),
      setFirst (front ++ [(kq, s)]) key ns = setFirst front key ns ++ [(kq, s)] := by
  intro front
  induction front with
  | nil =>
      show setFirst [(kq, s)] key ns = [(kq, s)]
      unfold setFirst
      rw [if_neg (by rw [hne]; decide)]
      rfl
  | cons a f ih =>
      cases a with
      | mk k₀ s₀ =>
          rw [List.cons_append]
          unfold setFirst
          by_cases hk : (k₀ == key) = true
          · rw [if_pos hk, if_pos hk, List.cons_append]
          · rw [if_neg hk, if_neg hk, List.cons_append, ih]

theorem setFirst_append_last_eq (key : List Char) (s ns : Sheet) :
    ∀ front : List (List Char × Sheet), (∀ p ∈ front, (p.1 == key) = false) →
      setFirst (front ++ [(key, s)]) key ns = front ++ [(key, ns)] := by
  intro front
  induction front with
  | nil =>
      intro _
      show setFirst [(key, s)] key ns = [(key, ns)]
      unfold setFirst
      rw [if_pos (beq_self_eq_true key)]
  | cons a f ih =>
      intro hfr
      cases a with
      | mk k₀ s₀ =>
          have hk : (k₀ == key) = false := hfr (k₀, s₀) (List.mem_cons_self _ _)
          rw [List.cons_append]
          unfold setFirst
          rw [if_neg (by rw [hk]; decide), List.cons_append,
            ih (fun p hp => hfr p (List.mem_cons_of_mem _ hp))]

theorem find?_append_last (key : List Char) (s : Sheet) :
    ∀ front : List (List Char × Sheet), (∀ p ∈ front, (p.1 == key) = false) →
      List.find? (fun p => p.1 == key) (front ++ [(key, s)]) = some (key, s) := by
  intro front
  induction front with
  | nil =>
      intro _
      exact find?_key_cons_pos (beq_self_eq_true key)
  | cons a f ih =>
      intro hfr
      have hk : (a.1 == key) = false := hfr a (List.mem_cons_self _ _)
      rw [List.cons_append,
        find?_key_cons_neg (fun hc => Bool.noConfusion (hk.symm.trans hc))]
      exact ih (fun p hp => hfr p (List.mem_cons_of_mem _ hp))

theorem SheetDated_append_left {v₀ : DT} {sh ex : Sheet} (h : SheetDated v₀ sh) :
    SheetDated v₀ (sh ++ ex) := by
  obtain ⟨row, hrow, rest⟩ := h
  exact ⟨row, List.mem_append_left ex hrow, rest⟩

theorem insertStep_ok {v₀ : DT} {w w₂ : WB} {kv : List Char × List Doc}
    (hg : ∀ d ∈ kv.2, DocGood v₀ d) (h : insertStep w kv = .ok w₂) :
    ∃ sh ex, wbGet? w kv.1 = some sh ∧ w₂ = wbSet w kv.1 (sh ++ ex) ∧
      (∀ r ∈ ex, RowOk r) ∧ (kv.2 ≠ [] → ∃ d ∈ kv.2, [Cell.s d.1] ∈ ex) := by
  unfold insertStep at h
  cases hget : wbGet? w kv.1 with
  | none =>
      rw [hget] at h
      exact absurd h (by simp [Bind.bind, Except.bind])
  | some sh =>
      rw [hget] at h
      obtain ⟨sh1, hsh1, h3⟩ := exceptBind_ok h
      have hsh1e : Except.ok sh = Except.ok sh1 := hsh1
      cases hsh1e
      obtain ⟨sh₂, hfold, h4⟩ := exceptBind_ok h3
      have h5 : Except.ok (wbSet w kv.1 sh₂) = Except.ok w₂ := h4
      have hw₂ : w₂ = wbSet w kv.1 sh₂ := by cases h5; rfl
      have hsg : ∀ d ∈ pySorted docLt kv.2, DocGood v₀ d :=
        fun d hd => hg d ((pySorted_mem kv.2 d).mp hd)
      have hlen : (pySorted docLt kv.2).length = kv.2.length := pySorted_length kv.2
      have hsne : kv.2 ≠ [] → pySorted docLt kv.2 ≠ [] := by
        intro hne0 hc
        rw [hc] at hlen
        exact hne0 (List.length_eq_zero.mp hlen.symm)
      by_cases hsp : pyMaxRow sh > 4
      · rw [if_pos hsp] at hfold
        obtain ⟨ex1, hex1, hok1, hd1⟩ :=
          appendDocs_fold (pySorted docLt kv.2) (sh ++ [[], []]) sh₂ hsg hfold
        refine ⟨sh, [[], []] ++ ex1, rfl, ?_, ?_, ?_⟩
        · rw [hw₂, hex1, List.append_assoc]
        · intro r hr
          rcases List.mem_append.mp hr with hr1 | hr2
          · rcases List.mem_cons.mp hr1 with rfl | hr3
            · exact blankRow_rowOk
            · rcases List.mem_cons.mp hr3 with rfl | hr4
              · exact blankRow_rowOk
              · exact absurd hr4 (List.not_mem_nil r)
          · exact hok1 r hr2
        · intro hne0
          obtain ⟨d, hd, hrow⟩ := hd1 (hsne hne0)
          exact ⟨d, (pySorted_mem kv.2 d).mp hd, List.mem_append_right _ hrow⟩
      · rw [if_neg hsp] at hfold
        obtain ⟨ex1, hex1, hok1, hd1⟩ :=
          appendDocs_fold (pySorted docLt kv.2) sh sh₂ hsg hfold
        refine ⟨sh, ex1, rfl, ?_, hok1, ?_⟩
        · rw [hw₂, hex1]
        · intro hne0
          obtain ⟨d, hd, hrow⟩ := hd1 (hsne hne0)
          exact ⟨d, (pySorted_mem kv.2 d).mp hd, hrow⟩

theorem insertStep_invL {v₀ : DT} {w w₂ : WB} {kv : List Char × List Doc}
    (hg : ∀ d ∈ kv.2, DocGood v₀ d) (h : insertStep w kv = .ok w₂) :
    InvL w.sheets w₂.sheets := by
  obtain ⟨sh, ex, hget, rfl, hok, _⟩ := insertStep_ok hg h
  exact setFirst_invL w.sheets kv.1 sh ex hget hok

theorem fold_invL {v₀ : DT} :
    ∀ (items : List (List Char × List Doc)) (w₁ w₂ : WB),
      (∀ kv ∈ items, ∀ d ∈ kv.2, DocGood v₀ d) →
      items.foldlM insertStep w₁ = .ok w₂ → InvL w₁.sheets w₂.sheets := by
  intro items
  induction items with
  | nil =>
      intro w₁ w₂ _ h
      have h2 : Except.ok w₁ = Except.ok w₂ := h
      cases h2
      exact InvL_refl w₁.sheets
  | cons kv rest ih =>
      intro w₁ w₂ hgood h
      rw [List.foldlM_cons] at h
      obtain ⟨w0, hw0, h2⟩ := exceptBind_ok h
      exact InvL_trans (insertStep_invL (hgood kv (List.mem_cons_self _ _)) hw0)
        (ih w0 w₂ (fun q hq => hgood q (List.mem_cons_of_mem _ hq)) h2)

theorem fold_caseB {v₀ : DT} {kstar : List Char} :
    ∀ (items : List (List Char × List Doc)) (w₁ w₂ : WB)
      (front : List (List Char × Sheet)) (sh : Sheet),
      (∀ kv ∈ items, ∀ d ∈ kv.2, DocGood v₀ d) →
      items.foldlM insertStep w₁ = .ok w₂ →
      w₁.sheets = front ++ [(kstar, sh)] →
      (∀ p ∈ front, (p.1 == kstar) = false) →
      (∀ r ∈ sh, RowOk r) →
      ∃ front₂ sh₂, w₂.sheets = front₂ ++ [(kstar, sh₂)] ∧
        (∀ p ∈ front₂, (p.1 == kstar) = false) ∧ (∀ r ∈ sh₂, RowOk r) ∧
        (SheetDated v₀ sh → SheetDated v₀ sh₂) ∧
        ((∃ kv ∈ items, kv.1 = kstar ∧ kv.2 ≠ []) → SheetDated v₀ sh₂) := by
  intro items
  induction items with
  | nil =>
      intro w₁ w₂ front sh _ h hshape hfr hok
      have h2 : Except.ok w₁ = Except.ok w₂ := h
      cases h2
      exact ⟨front, sh, hshape, hfr, hok, id,
        by rintro ⟨kv, hkv, -⟩; exact absurd hkv (List.not_mem_nil kv)⟩
  | cons kv rest ih =>
      intro w₁ w₂ front sh hgood h hshape hfr hok
      rw [List.foldlM_cons] at h
      obtain ⟨w0, hw0, h2⟩ := exceptBind_ok h
      obtain ⟨sh0, ex, hget, hw0eq, hexok, hdated⟩ :=
        insertStep_ok (hgood kv (List.mem_cons_self _ _)) hw0
      by_cases hkk : (kv.1 == kstar) = true
      · have hkeq : kv.1 = kstar := beq_iff_eq.mp hkk
        have hget2 : wbGet? w₁ kv.1 = some sh := by
          unfold wbGet?
          rw [hshape, hkeq, find?_append_last kstar sh front hfr]
          rfl
        have hsh0 : sh0 = sh := by
          rw [hget] at hget2
          exact Option.some.inj hget2
        subst hsh0
        have hw0sheets : w0.sheets = front ++ [(kstar, sh0 ++ ex)] := by
          rw [hw0eq]
          show setFirst w₁.sheets kv.1 (sh0 ++ ex) = _
          rw [hshape, hkeq]
          exact setFirst_append_last_eq kstar sh0 (sh0 ++ ex) front hfr
        have hok2 : ∀ r ∈ sh0 ++ ex, RowOk r := fun r hr =>
          (List.mem_append.mp hr).elim (hok r) (hexok r)
        obtain ⟨front₂, sh₂, hshape₂, hfr₂, hok₂, hpres₂, hwrites₂⟩ :=
          ih w0 w₂ front (sh0 ++ ex) (fun q hq => hgood q (List.mem_cons_of_mem _ hq))
            h2 hw0sheets hfr hok2
        refine ⟨front₂, sh₂, hshape₂, hfr₂, hok₂, ?_, ?_⟩
        · intro hd
          exact hpres₂ (SheetDated_append_left hd)
        · rintro ⟨kv2, hkv2, hk2eq, hk2ne⟩
          rcases List.mem_cons.mp hkv2 with rfl | hmem
          · obtain ⟨d, hd, hrow⟩ := hdated hk2ne
            obtain ⟨⟨dd, mm, yy, hfmt, hval, hlt⟩, -⟩ :=
              hgood kv2 (List.mem_cons_self _ _) d hd
            exact hpres₂ ⟨[Cell.s d.1], List.mem_append_right sh0 hrow,
              d.1, dd, mm, yy, rfl, hfmt, hval, hlt⟩
          · exact hwrites₂ ⟨kv2, hmem, hk2eq, hk2ne⟩
      · have hne : (kstar == kv.1) = false := by
          by_cases hbe : (kstar == kv.1) = true
          · exact absurd (show (kv.1 == kstar) = true from by
              rw [show kstar = kv.1 from beq_iff_eq.mp hbe]
              exact beq_self_eq_true kv.1) hkk
          · exact Bool.eq_false_iff.mpr hbe
        have hw0sheets : w0.sheets = setFirst front kv.1 (sh0 ++ ex) ++ [(kstar, sh)] := by
          rw [hw0eq]
          show setFirst w₁.sheets kv.1 (sh0 ++ ex) = _
          rw [hshape]
          exact setFirst_append_last_ne kstar sh kv.1 (sh0 ++ ex) hne front
        have hfr2 : ∀ p ∈ setFirst front kv.1 (sh0 ++ ex), (p.1 == kstar) = false := by
          intro p hp
          obtain ⟨q, hq, hq1⟩ := List.mem_map.mp (setFirst_mem_name hp)
          rw [← hq1]
          exact hfr q hq
        obtain ⟨front₂, sh₂, hshape₂, hfr₂, hok₂, hpres₂, hwrites₂⟩ :=
          ih w0 w₂ (setFirst front kv.1 (sh0 ++ ex)) sh
            (fun q hq => hgood q (List.mem_cons_of_mem _ hq)) h2 hw0sheets hfr2 hok
        refine ⟨front₂, sh₂, hshape₂, hfr₂, hok₂, hpres₂, ?_⟩
        rintro ⟨kv2, hkv2, hk2eq, hk2ne⟩
        rcases List.mem_cons.mp hkv2 with rfl | hmem
        · exact absurd (show (kv2.1 == kstar) = true from by
            rw [hk2eq]; exact beq_self_eq_true kstar) hkk
        · exact hwrites₂ ⟨kv2, hmem, hk2eq, hk2ne⟩

theorem cs_strong : ∀ (keys : List (List Char)) (wb : WB),
    create_sheets keys wb = wb ∨
    ∃ front kstar, (create_sheets keys wb).sheets = front ++ [(kstar, [])] ∧
      kstar ∈ keys ∧ ∀ p ∈ front, (p.1 == kstar) = false := by
  intro keys
  induction keys with
  | nil => intro wb; exact Or.inl rfl
  | cons a t ih =>
      intro wb
      rw [create_sheets_cons]
      by_cases hc : (sheetnames wb).contains a = true
      · rw [if_pos hc]
        rcases ih wb with h | ⟨front, kstar, h1, h2, h3⟩
        · exact Or.inl h
        · exact Or.inr ⟨front, kstar, h1, List.mem_cons_of_mem a h2, h3⟩
      · rw [if_neg hc]
        have hnm : a ∉ sheetnames wb := contains_false_not_mem (Bool.eq_false_iff.mpr hc)
        rcases ih ⟨wb.sheets ++ [(a, [])]⟩ with h | ⟨front, kstar, h1, h2, h3⟩
        · refine Or.inr ⟨wb.sheets, a, ?_, List.mem_cons_self a t, ?_⟩
          · rw [h]
          · intro p hp
            have hpn : p.1 ∈ sheetnames wb := List.mem_map_of_mem _ hp
            exact beq_eq_false_iff_ne.mpr (fun he => hnm (he ▸ hpn))
        · exact Or.inr ⟨front, kstar, h1, List.mem_cons_of_mem a h2, h3⟩

theorem fsr_getLast {keys : List (List Char)} {wb wb₂ : WB} {k₀ : List Char}
    {rows₀ : Sheet} (h : first_sheet_rename keys wb = .ok wb₂)
    (hlast : wb.sheets.getLast? = some (k₀, rows₀)) :
    ∃ kq, wb₂.sheets.getLast? = some (kq, rows₀) := by
  unfold first_sheet_rename at h
  by_cases hl : wb.sheets.length = 1
  · rw [if_pos hl] at h
    obtain ⟨n₀, sh, hsh⟩ : ∃ n₀ sh, wb.sheets = [(n₀, sh)] := by
      cases hsheets : wb.sheets with
      | nil => rw [hsheets] at hl; simp at hl
      | cons p t =>
          cases t with
          | nil => cases p with | mk pn ps => exact ⟨pn, ps, rfl⟩
          | cons q u => rw [hsheets] at hl; simp at hl
    cases hk : keys with
    | nil => rw [hk] at h; exact Except.noConfusion h
    | cons kh kt =>
        rw [hk] at h
        have h2 : Except.ok (renameFirst kh wb) = Except.ok wb₂ := h
        have hw : wb₂ = renameFirst kh wb := by cases h2; rfl
        rw [hsh] at hlast
        rw [List.getLast?_singleton] at hlast
        have hl2 : (n₀, sh) = (k₀, rows₀) := Option.some.inj hlast
        injection hl2 with he1 he2
        have hren : renameFirst kh wb = ⟨[(kh, sh)]⟩ := by
          unfold renameFirst
          rw [hsh]
        refine ⟨kh, ?_⟩
        rw [hw, hren]
        rw [show WB.mk [(kh, sh)] = WB.mk [(kh, rows₀)] from by rw [he2]]
        exact List.getLast?_singleton (kh, rows₀)
  · rw [if_neg hl] at h
    have h2 : Except.ok wb = Except.ok wb₂ := h
    cases h2
    exact ⟨k₀, hlast⟩

theorem latestScan_dated {v₀ : DT} {sh : Sheet}
    (hok : ∀ r ∈ sh, RowOk r) (hd : SheetDated v₀ sh) :
    ∃ r, latestScanRows sh = .ok r ∧ dtLeB v₀ r = true := by
  obtain ⟨row, hrow, v, d, m, y, hc, hfmt, hval, hlt⟩ := hd
  obtain ⟨r, hr, hle⟩ := scanDated hok hrow hc hfmt hval epochDT
  exact ⟨r, hr, dtLeB_trans (dtLeB_of_lt hlt) hle⟩

theorem latestScan_append_good {v₀ : DT} {rows₀ ex : List Row}
    (h₀ : latestScanRows rows₀ = .ok v₀) (hok : ∀ r ∈ ex, RowOk r) :
    ∃ r, latestScanRows (rows₀ ++ ex) = .ok r ∧ dtLeB v₀ r = true := by
  obtain ⟨r, hr, hle⟩ := scanGood hok v₀
  refine ⟨r, ?_, hle⟩
  show (rows₀ ++ ex).foldlM dtMaxStep epochDT = .ok r
  rw [foldlM_append_except dtMaxStep rows₀ ex epochDT]
  rw [show rows₀.foldlM dtMaxStep epochDT = .ok v₀ from h₀]
  exact hr

/-- C5 counterexample: on a ledger whose last sheet records 31.12.2023,
appending the non-empty bucket of one January-2020 document creates the
sheet 01.2020 at the end of the workbook; latest_grocery_date scans only
the last sheet, so the cutoff drops from 31.12.2023 to 05.01.2020. -/
theorem claim_C5_counterexample :
    latest_grocery_date exWbDec = .ok ⟨2023, 12, 31, 0, 0⟩ ∧
    insert_data exWbDec exBucketOld = .ok
      ⟨[(lc "11.2023", [[Cell.s (lc "05.11.2023")]]),
        (lc "12.2023", [[Cell.s (lc "31.12.2023")]]),
        (lc "01.2020", [[Cell.s (lc "05.01.2020")], headerRow, sumRow 3 2, [], []])]⟩ ∧
    latest_grocery_date
      ⟨[(lc "11.2023", [[Cell.s (lc "05.11.2023")]]),
        (lc "12.2023", [[Cell.s (lc "31.12.2023")]]),
        (lc "01.2020", [[Cell.s (lc "05.01.2020")], headerRow, sumRow 3 2, [], []])]⟩
      = .ok ⟨2020, 1, 5, 0, 0⟩ ∧
    dtLtB ⟨2020, 1, 5, 0, 0⟩ ⟨2023, 12, 31, 0, 0⟩ = true :=
  ⟨rfl, rfl, rfl, rfl⟩

/-- C5 as amended: the cutoff read back by latest_grocery_date never
decreases across insert_data, provided every period of the bucket is
non-empty and every document of the bucket carries a calendar-valid
dd.mm.yyyy date string strictly after the current cutoff, with item names
that do not themselves start with a date token. Without the strictly-after
condition the claim fails, because latest_grocery_date reads only the last
worksheet and a freshly created period sheet with only old dates becomes
that last worksheet. -/
theorem claim_C5 (wb wb' : WB) (bucket : List (List Char × List Doc)) (v₀ : DT)
    (hlat : latest_grocery_date wb = .ok v₀)
    (hgood : ∀ kv ∈ bucket, kv.2 ≠ [] ∧ ∀ d ∈ kv.2, DocGood v₀ d)
    (h : insert_data wb bucket = .ok wb') :
    ∃ v₁, latest_grocery_date wb' = .ok v₁ ∧ dtLeB v₀ v₁ = true := by
  unfold insert_data at h
  obtain ⟨wb₁, hhs, hfold⟩ := exceptBind_ok h
  have hfoldgood : ∀ kv ∈ pySorted keyDocsLt bucket, ∀ d ∈ kv.2, DocGood v₀ d :=
    fun kv hkv => (hgood kv ((pySorted_mem bucket kv).mp hkv)).2
  unfold latest_grocery_date at hlat
  cases hlast : wb.sheets.getLast? with
  | none => rw [hlast] at hlat; exact Except.noConfusion hlat
  | some p =>
      rw [hlast] at hlat
      cases p with
      | mk k₀ rows₀ =>
      have hscan : latestScanRows rows₀ = .ok v₀ := hlat
      unfold handle_sheets at hhs
      cases hr : first_sheet_rename (pySorted strLt (bucket.map (fun q => q.1))) wb with
      | error e => rw [hr] at hhs; exact absurd hhs (by simp [Except.map])
      | ok wb₂ =>
          rw [hr] at hhs
          simp only [Except.map] at hhs
          have hwb₁ : wb₁ =
              create_sheets (pySorted strLt (bucket.map (fun q => q.1))) wb₂ := by
            cases hhs; rfl
          obtain ⟨kq, hlast₂⟩ := fsr_getLast hr hlast
          rcases cs_strong (pySorted strLt (bucket.map (fun q => q.1))) wb₂ with
            hcs | ⟨front, kstar, hshape, hks, hfr⟩
          · -- no sheet was created: the last sheet keeps its rows
            rw [hcs] at hwb₁
            subst hwb₁
            have hinv := fold_invL (pySorted keyDocsLt bucket) wb₁ wb' hfoldgood hfold
            obtain ⟨p₂, hp₂, hrel⟩ := InvL_getLast hinv (kq, rows₀) hlast₂
            obtain ⟨hname, ex, hcontent, hexok⟩ := hrel
            obtain ⟨r, hrscan, hle⟩ := latestScan_append_good hscan hexok
            refine ⟨r, ?_, hle⟩
            unfold latest_grocery_date
            rw [hp₂]
            show latestScanRows p₂.2 = Except.ok r
            rw [hcontent]
            exact hrscan
          · -- the last sheet is freshly created for a bucket key
            have hshape₁ : wb₁.sheets = front ++ [(kstar, [])] := by
              rw [hwb₁]; exact hshape
            obtain ⟨kv₀, hkv₀mem, hkv₀key⟩ : ∃ kv ∈ bucket, kv.1 = kstar := by
              have hks2 : kstar ∈ bucket.map (fun q => q.1) :=
                (pySorted_mem (bucket.map (fun q => q.1)) kstar).mp hks
              obtain ⟨kv, hkv, hkeq⟩ := List.mem_map.mp hks2
              exact ⟨kv, hkv, hkeq⟩
            obtain ⟨front₂, sh₂, hshape₂, hfr₂, hok₂, hpres₂, hwrites⟩ :=
              fold_caseB (pySorted keyDocsLt bucket) wb₁ wb' front [] hfoldgood hfold
                hshape₁ hfr (fun r hr0 => absurd hr0 (List.not_mem_nil r))
            have hdated : SheetDated v₀ sh₂ :=
              hwrites ⟨kv₀, (pySorted_mem bucket kv₀).mpr hkv₀mem, hkv₀key,
                (hgood kv₀ hkv₀mem).1⟩
            obtain ⟨r, hrscan, hle⟩ := latestScan_dated hok₂ hdated
            refine ⟨r, ?_, hle⟩
            have hlast3 : wb'.sheets.getLast? = some (kstar, sh₂) := by
              rw [hshape₂]
              exact List.getLast?_concat front₂
            unfold latest_grocery_date
            rw [hlast3]
            exact hrscan

/-- C5 witness: appending a January-2024 document to the December-2023
ledger keeps the cutoff at least 31.12.2023. -/
theorem claim_C5_witness :
    ∃ v₁, latest_grocery_date
      ⟨[(lc "11.2023", [[Cell.s (lc "05.11.2023")]]),
        (lc "12.2023", [[Cell.s (lc "31.12.2023")]]),
        (lc "01.2024", [[Cell.s (lc "05.01.2024")], headerRow, sumRow 3 2, [], []])]⟩
      = .ok v₁ ∧ dtLeB ⟨2023, 12, 31, 0, 0⟩ v₁ = true :=
  claim_C5 exWbDec
    ⟨[(lc "11.2023", [[Cell.s (lc "05.11.2023")]]),
      (lc "12.2023", [[Cell.s (lc "31.12.2023")]]),
      (lc "01.2024", [[Cell.s (lc "05.01.2024")], headerRow, sumRow 3 2, [], []])]⟩
    [(lc "01.2024", [(lc "05.01.2024", [])])] ⟨2023, 12, 31, 0, 0⟩
    rfl
    (fun kv hkv => by
      cases List.mem_singleton.mp hkv
      refine ⟨by decide, fun d hd => ?_⟩
      cases List.mem_singleton.mp hd
      exact ⟨⟨5, 1, 2024, by decide, by decide, by decide⟩,
        fun rec hrec => absurd hrec (List.not_mem_nil rec)⟩)
    rfl

end Biedronka
